import Mathlib

/-!
Verification of the FortiCfgParser repository (jnmeurisse/FortiCfgParser).

The development shallowly embeds the two source modules:

* FortiCfgParser/_config.py — the configuration node tree (set / unset /
  object / table nodes), the traversal algorithm, the quoting helpers
  qus / uqs, the typed accessors, and the serializer make_config;
* FortiCfgParser/_parser.py — the character-level lexer and the
  recursive-descent parser FgtConfigParser.parse.

Python strings are embedded as List Char.  Python dict (insertion ordered,
overwrite keeps the position of an existing key) is embedded as an
association list with an insert-with-overwrite operation.  Exceptions are
embedded with Except; the embedded error type records which error message a
raise would carry (stream positions, which never influence control flow,
are not modelled).  The two parser loops of unbounded recursion depth take
an explicit fuel argument; all other recursions are structural or
well-founded on the remaining input.
-/

namespace FortiCfg

/-- A token in a config file: a sequence of characters (FgtConfigToken). -/
abbrev Tok := List Char

/-- The backslash character, written out once to keep escapes readable. -/
def bsC : Char := '\\'

/-- The double-quote character (Lexer.QUOTE). -/
def dqC : Char := '"'

/-- Python str.isspace restricted to the single-byte whitespace characters:
space, tab, newline, carriage return, vertical tab, form feed. -/
def pyIsSpace (c : Char) : Bool :=
  c = ' ' || c = '\t' || c = '\n' || c = '\r' || c = '\x0b' || c = '\x0c'

/-- Does the pattern continuation appear at the start of the list?  Used to
embed the occurrence test of Python str.replace. -/
def leadMatch : List Char → List Char → Bool
  | [], _ => true
  | _ :: _, [] => false
  | p :: ps, c :: cs => c = p && leadMatch ps cs

/-- Python str.replace(pat, rep) where pat = p :: pcs is a non-empty pattern:
replace every non-overlapping occurrence, scanning left to right and
continuing after each replacement. -/
def pyReplace (p : Char) (pcs rep : List Char) : List Char → List Char
  | [] => []
  | c :: cs =>
    if c = p && leadMatch pcs cs then rep ++ pyReplace p pcs rep (cs.drop pcs.length)
    else c :: pyReplace p pcs rep cs
termination_by s => s.length
decreasing_by
  · simp only [List.length_drop, List.length_cons]
    omega
  · simp only [List.length_cons]
    omega

/-- qus from _config.py: wrap in double quotes after escaping every backslash
to a double backslash and then every double quote to backslash-quote. -/
def qus (arg : List Char) : List Char :=
  dqC :: (pyReplace dqC [] [bsC, dqC] (pyReplace bsC [] [bsC, bsC] arg)) ++ [dqC]

/-- uqs from _config.py: return the argument unchanged when it is shorter
than two characters or is not surrounded by double quotes; otherwise
un-escape backslash-quote to quote, then double backslash to backslash, and
strip the first and last character. -/
def uqs (arg : List Char) : List Char :=
  if arg.length < 2 then arg
  else if arg.head? ≠ some dqC ∨ arg.getLast? ≠ some dqC then arg
  else ((pyReplace bsC [bsC] [bsC] (pyReplace bsC [dqC] [dqC] arg)).drop 1).dropLast

/-- The combined effect of the two escaping passes of qus, computed in one
sweep: backslash to double backslash, quote to backslash-quote. -/
def escAll : List Char → List Char
  | [] => []
  | c :: cs =>
    (if c = bsC then [bsC, bsC] else if c = dqC then [bsC, dqC] else [c]) ++ escAll cs

/-- The intermediate result of the first uqs pass on an escaped string: the
trailing escape of the final character loses one backslash to the pass that
rewrites backslash-quote first. -/
def squash : List Char → List Char
  | [] => []
  | c :: cs =>
    if c = bsC then
      (match cs with
       | [] => [bsC]
       | _ :: _ => bsC :: bsC :: squash cs)
    else c :: squash cs

theorem bs_ne_dq : bsC ≠ dqC := by decide

theorem dq_ne_bs : dqC ≠ bsC := by decide

theorem escAll_nil : escAll [] = [] := rfl

theorem escAll_cons_bs (cs : List Char) : escAll (bsC :: cs) = bsC :: bsC :: escAll cs := by
  rw [escAll, if_pos rfl]
  rfl

theorem escAll_cons_dq (cs : List Char) : escAll (dqC :: cs) = bsC :: dqC :: escAll cs := by
  rw [escAll, if_neg dq_ne_bs, if_pos rfl]
  rfl

theorem escAll_cons_other (c : Char) (cs : List Char) (h1 : c ≠ bsC) (h2 : c ≠ dqC) :
    escAll (c :: cs) = c :: escAll cs := by
  rw [escAll, if_neg h1, if_neg h2]
  rfl

theorem squash_nil : squash [] = [] := rfl

theorem pyReplace_nil (p : Char) (pcs rep : List Char) : pyReplace p pcs rep [] = [] := by
  simp [pyReplace]

theorem squash_bs_nil : squash [bsC] = [bsC] := by
  simp [squash]

theorem squash_bs_cons (x : Char) (xs : List Char) :
    squash (bsC :: x :: xs) = bsC :: bsC :: squash (x :: xs) := by
  simp [squash]

theorem squash_cons_other (c : Char) (cs : List Char) (h1 : c ≠ bsC) :
    squash (c :: cs) = c :: squash cs := by
  simp [squash, h1]

theorem pyReplace_single_cons (p : Char) (rep : List Char) (c : Char) (cs : List Char) :
    pyReplace p [] rep (c :: cs) =
      (if c = p then rep else [c]) ++ pyReplace p [] rep cs := by
  by_cases h : c = p <;> simp [pyReplace, leadMatch, h]

theorem pyReplace_single_append (p : Char) (rep : List Char) (a b : List Char) :
    pyReplace p [] rep (a ++ b) = pyReplace p [] rep a ++ pyReplace p [] rep b := by
  induction a with
  | nil => simp [pyReplace]
  | cons c cs ih => simp [pyReplace_single_cons, ih]

theorem qus_inner (s : List Char) :
    pyReplace dqC [] [bsC, dqC] (pyReplace bsC [] [bsC, bsC] s) = escAll s := by
  induction s with
  | nil => simp [pyReplace, escAll]
  | cons c cs ih =>
    rw [pyReplace_single_cons, pyReplace_single_append, ih]
    by_cases hb : c = bsC
    · subst hb
      rw [if_pos rfl, escAll_cons_bs]
      have h2 : pyReplace dqC [] [bsC, dqC] [bsC, bsC] = [bsC, bsC] := by
        rw [pyReplace_single_cons, if_neg bs_ne_dq, pyReplace_single_cons, if_neg bs_ne_dq,
          pyReplace_nil]
        rfl
      rw [h2]
      simp
    · by_cases hq : c = dqC
      · subst hq
        have h2 : pyReplace dqC [] [bsC, dqC] [dqC] = [bsC, dqC] := by
          rw [pyReplace_single_cons, if_pos rfl, pyReplace_nil]
          rfl
        rw [if_neg hb, escAll_cons_dq, h2]
        simp
      · have h2 : pyReplace dqC [] [bsC, dqC] [c] = [c] := by
          rw [pyReplace_single_cons, if_neg hq, pyReplace_nil]
          simp
        rw [if_neg hb, escAll_cons_other c cs hb hq, h2]
        simp

theorem d1_nonbs (c : Char) (t : List Char) (h : c ≠ bsC) :
    pyReplace bsC [dqC] [dqC] (c :: t) = c :: pyReplace bsC [dqC] [dqC] t := by
  simp [pyReplace, h]

theorem d1_bs_nondq (t : List Char) (h : t.head? ≠ some dqC) :
    pyReplace bsC [dqC] [dqC] (bsC :: t) = bsC :: pyReplace bsC [dqC] [dqC] t := by
  match t with
  | [] => simp [pyReplace, leadMatch]
  | x :: xs =>
    simp only [List.head?] at h
    have hx : x ≠ dqC := by intro e; exact h (by rw [e])
    simp [pyReplace, leadMatch, hx]

theorem d1_bs_dq (t : List Char) :
    pyReplace bsC [dqC] [dqC] (bsC :: dqC :: t) = dqC :: pyReplace bsC [dqC] [dqC] t := by
  simp [pyReplace, leadMatch]

theorem d2_nonbs (c : Char) (t : List Char) (h : c ≠ bsC) :
    pyReplace bsC [bsC] [bsC] (c :: t) = c :: pyReplace bsC [bsC] [bsC] t := by
  simp [pyReplace, h]

theorem d2_bs_nonbs (t : List Char) (h : t.head? ≠ some bsC) :
    pyReplace bsC [bsC] [bsC] (bsC :: t) = bsC :: pyReplace bsC [bsC] [bsC] t := by
  match t with
  | [] => simp [pyReplace, leadMatch]
  | x :: xs =>
    simp only [List.head?] at h
    have hx : x ≠ bsC := by intro e; exact h (by rw [e])
    simp [pyReplace, leadMatch, hx]

theorem d2_bs_bs (t : List Char) :
    pyReplace bsC [bsC] [bsC] (bsC :: bsC :: t) = bsC :: pyReplace bsC [bsC] [bsC] t := by
  simp [pyReplace, leadMatch]

theorem escAll_head (x : Char) (cs : List Char) :
    (escAll (x :: cs)).head? ≠ some dqC := by
  by_cases hb : x = bsC
  · subst hb
    rw [escAll_cons_bs]
    simp
    exact bs_ne_dq
  · by_cases hq : x = dqC
    · subst hq
      rw [escAll_cons_dq]
      simp
      exact bs_ne_dq
    · rw [escAll_cons_other x cs hb hq]
      simp
      exact hq

theorem d1_escAll (s : List Char) :
    pyReplace bsC [dqC] [dqC] (escAll s ++ [dqC]) = squash s ++ [dqC] := by
  induction s with
  | nil =>
    rw [escAll_nil, squash_nil]
    simp only [List.nil_append]
    rw [d1_nonbs dqC [] dq_ne_bs, pyReplace_nil]
  | cons c cs ih =>
    by_cases hb : c = bsC
    · subst hb
      match cs with
      | [] =>
        rw [escAll_cons_bs, escAll_nil, squash_bs_nil]
        show pyReplace bsC [dqC] [dqC] (bsC :: (bsC :: ([] ++ [dqC]))) = [bsC] ++ [dqC]
        simp only [List.nil_append]
        rw [d1_bs_nondq (bsC :: [dqC]) (by simp; exact bs_ne_dq), d1_bs_dq, pyReplace_nil]
        rfl
      | x :: xs =>
        rw [escAll_cons_bs, squash_bs_cons]
        show pyReplace bsC [dqC] [dqC] (bsC :: (bsC :: (escAll (x :: xs) ++ [dqC]))) =
          bsC :: bsC :: (squash (x :: xs) ++ [dqC])
        have hne : (escAll (x :: xs)) ≠ [] := by
          by_cases h1 : x = bsC
          · subst h1; rw [escAll_cons_bs]; simp
          · by_cases h2 : x = dqC
            · subst h2; rw [escAll_cons_dq]; simp
            · rw [escAll_cons_other x xs h1 h2]; simp
        have hh2 : (escAll (x :: xs) ++ [dqC]).head? ≠ some dqC := by
          have hh := escAll_head x xs
          match he : escAll (x :: xs) with
          | [] => exact absurd he hne
          | y :: ys =>
            rw [he] at hh
            simpa using hh
        have hh : (bsC :: (escAll (x :: xs) ++ [dqC])).head? ≠ some dqC := by
          simp
          exact bs_ne_dq
        rw [d1_bs_nondq _ hh, d1_bs_nondq _ hh2, ih]
    · by_cases hq : c = dqC
      · subst hq
        rw [escAll_cons_dq, squash_cons_other dqC cs dq_ne_bs]
        show pyReplace bsC [dqC] [dqC] (bsC :: (dqC :: (escAll cs ++ [dqC]))) =
          dqC :: (squash cs ++ [dqC])
        rw [d1_bs_dq, ih]
      · rw [escAll_cons_other c cs hb hq, squash_cons_other c cs hb]
        show pyReplace bsC [dqC] [dqC] (c :: (escAll cs ++ [dqC])) = c :: (squash cs ++ [dqC])
        rw [d1_nonbs _ _ hb, ih]

theorem d2_squash (s : List Char) :
    pyReplace bsC [bsC] [bsC] (squash s ++ [dqC]) = s ++ [dqC] := by
  induction s with
  | nil =>
    rw [squash_nil]
    simp only [List.nil_append]
    rw [d2_nonbs dqC [] dq_ne_bs, pyReplace_nil]
  | cons c cs ih =>
    by_cases hb : c = bsC
    · subst hb
      match cs with
      | [] =>
        rw [squash_bs_nil]
        show pyReplace bsC [bsC] [bsC] (bsC :: [dqC]) = [bsC] ++ [dqC]
        rw [d2_bs_nonbs [dqC] (by simp; exact dq_ne_bs), d2_nonbs dqC [] dq_ne_bs,
          pyReplace_nil]
        rfl
      | x :: xs =>
        rw [squash_bs_cons]
        show pyReplace bsC [bsC] [bsC] (bsC :: (bsC :: (squash (x :: xs) ++ [dqC]))) =
          bsC :: ((x :: xs) ++ [dqC])
        rw [d2_bs_bs, ih]
    · rw [squash_cons_other c cs hb]
      show pyReplace bsC [bsC] [bsC] (c :: (squash cs ++ [dqC])) = (c :: cs) ++ [dqC]
      rw [d2_nonbs _ _ hb, ih]
      rfl

/-- Claim C6: for every string s, unquote (quote s) equals s, where quote
(qus) wraps s in double quotes after escaping backslash to double backslash
and then double quote to backslash-quote, and unquote (uqs) strips a pair of
matching surrounding double quotes and un-escapes backslash-quote to quote
and then double backslash to backslash, returning its input unchanged when
the argument has length less than 2 or does not both start and end with a
double quote. -/
theorem uqs_qus_id (s : List Char) : uqs (qus s) = s := by
  have hq : qus s = dqC :: (escAll s ++ [dqC]) := by
    rw [qus, qus_inner]
    rfl
  rw [hq, uqs]
  have hlen : (dqC :: (escAll s ++ [dqC])).length = (escAll s).length + 2 := by simp
  rw [if_neg (by omega)]
  have hlast : (dqC :: (escAll s ++ [dqC])).getLast? = some dqC := by
    rw [show dqC :: (escAll s ++ [dqC]) = (dqC :: escAll s) ++ [dqC] from by
      rw [List.cons_append]]
    exact List.getLast?_concat _
  rw [if_neg (by simp [hlast])]
  rw [d1_nonbs dqC _ dq_ne_bs, d1_escAll]
  rw [d2_nonbs dqC _ dq_ne_bs, d2_squash]
  simp

mutual
/-- A configuration node (class FgtConfigNode of _config.py): a SET command
with its parameter tokens (FgtConfigSet), an UNSET command (FgtConfigUnset),
a CONFIG object (FgtConfigObject) or a CONFIG table (FgtConfigTable).  The
node never stores its own name; it is reached through the dictionary of its
parent. -/
inductive FgtConfigNode where
  | set (params : List Tok)
  | unset
  | object (entries : FgtConfigDict)
  | table (entries : FgtConfigDict)
deriving DecidableEq

/-- The insertion-ordered dictionary of children of a CONFIG object or
table (class FgtConfigDict of _config.py), embedded as the sequence of its
key / node pairs in insertion order. -/
inductive FgtConfigDict where
  | nil
  | cons (key : Tok) (node : FgtConfigNode) (rest : FgtConfigDict)
deriving DecidableEq
end

/-- Python dict assignment d[k] = v on a FgtConfigDict: overwrite in place
when the key is present, keeping its position, append at the end
otherwise. -/
def dictInsert (k : Tok) (v : FgtConfigNode) : FgtConfigDict → FgtConfigDict
  | .nil => .cons k v .nil
  | .cons k' v' t => if k' = k then .cons k v t else .cons k' v' (dictInsert k v t)

/-- Python dict lookup d.get(k) on a FgtConfigDict. -/
def dictGet (k : Tok) : FgtConfigDict → Option FgtConfigNode
  | .nil => none
  | .cons k' v' t => if k' = k then some v' else dictGet k t

/-- Python membership test k in d on a FgtConfigDict. -/
def dictHasKey (k : Tok) : FgtConfigDict → Bool
  | .nil => false
  | .cons k' _ t => k' = k || dictHasKey k t

/-- Concatenation of two dictionaries (used to describe the accumulator of
the parsing loops; the loops only ever append fresh keys). -/
def dictAppend : FgtConfigDict → FgtConfigDict → FgtConfigDict
  | .nil, e => e
  | .cons k v t, e => .cons k v (dictAppend t e)

/-- Structural induction on FgtConfigDict alone; the mutual recursor of the
nested pair of inductives is not usable by the induction tactic directly. -/
theorem FgtConfigDict.inductionOn {motive : FgtConfigDict → Prop}
    (base : motive .nil)
    (step : ∀ k v t, motive t → motive (.cons k v t)) : ∀ es, motive es
  | .nil => base
  | .cons k v t => step k v t (FgtConfigDict.inductionOn base step t)

mutual
/-- Mutual structural induction, node side. -/
theorem nodeMutualInd {mN : FgtConfigNode → Prop} {mE : FgtConfigDict → Prop}
    (hset : ∀ ps, mN (.set ps)) (hunset : mN .unset)
    (hobj : ∀ es, mE es → mN (.object es)) (htab : ∀ es, mE es → mN (.table es))
    (hnil : mE .nil) (hcons : ∀ k v t, mN v → mE t → mE (.cons k v t)) :
    ∀ n, mN n
  | .set ps => hset ps
  | .unset => hunset
  | .object es => hobj es (dictMutualInd hset hunset hobj htab hnil hcons es)
  | .table es => htab es (dictMutualInd hset hunset hobj htab hnil hcons es)

/-- Mutual structural induction, dictionary side. -/
theorem dictMutualInd {mN : FgtConfigNode → Prop} {mE : FgtConfigDict → Prop}
    (hset : ∀ ps, mN (.set ps)) (hunset : mN .unset)
    (hobj : ∀ es, mE es → mN (.object es)) (htab : ∀ es, mE es → mN (.table es))
    (hnil : mE .nil) (hcons : ∀ k v t, mN v → mE t → mE (.cons k v t)) :
    ∀ es, mE es
  | .nil => hnil
  | .cons k v t =>
    hcons k v t (nodeMutualInd hset hunset hobj htab hnil hcons v)
      (dictMutualInd hset hunset hobj htab hnil hcons t)
end

/-- A single callback invocation recorded during a traversal: the
enter/leave flag, the (key, node) argument, the contents of the parents
stack at the time of the call (bottom of the stack first), and the user
data argument. -/
structure TraverseEvent (δ : Type) where
  enter : Bool
  item : Tok × FgtConfigNode
  parents : List (Tok × FgtConfigNode)
  data : δ
deriving DecidableEq

mutual
/-- FgtConfigNode.traverse of _config.py, with the callback observed as a
trace of events and the mutable parents deque threaded explicitly.  A SET
or UNSET node invokes the callback exactly once with the enter flag
(FgtConfigSet.traverse, FgtConfigUnset.traverse); an object or table
(FgtConfigBody.traverse) invokes the callback with the enter flag, appends
(key, self) to the parents deque, traverses every child in insertion
order, pops the deque and invokes the callback with the leave flag.  The
result is the list of recorded events together with the final contents of
the parents deque. -/
def traverseNode (δ : Type) (key : Tok) (node : FgtConfigNode)
    (parents : List (Tok × FgtConfigNode)) (data : δ) :
    List (TraverseEvent δ) × List (Tok × FgtConfigNode) :=
  match node with
  | .set _ => ([⟨true, (key, node), parents, data⟩], parents)
  | .unset => ([⟨true, (key, node), parents, data⟩], parents)
  | .object es =>
    let r := traverseDict δ es (parents ++ [(key, node)]) data
    (⟨true, (key, node), parents, data⟩ ::
        (r.1 ++ [⟨false, (key, node), r.2.dropLast, data⟩]),
      r.2.dropLast)
  | .table es =>
    let r := traverseDict δ es (parents ++ [(key, node)]) data
    (⟨true, (key, node), parents, data⟩ ::
        (r.1 ++ [⟨false, (key, node), r.2.dropLast, data⟩]),
      r.2.dropLast)

/-- The children loop of FgtConfigBody.traverse (and the whole body of
FgtConfigRoot.traverse): traverse every child in insertion order, threading
the mutable parents deque from one child to the next. -/
def traverseDict (δ : Type) (es : FgtConfigDict)
    (parents : List (Tok × FgtConfigNode)) (data : δ) :
    List (TraverseEvent δ) × List (Tok × FgtConfigNode) :=
  match es with
  | .nil => ([], parents)
  | .cons k v t =>
    let r1 := traverseNode δ k v parents data
    let r2 := traverseDict δ t r1.2 data
    (r1.1 ++ r2.1, r2.2)
end

/-- FgtConfigRoot.traverse of _config.py: traverse the children only; the
root node itself triggers no callback. -/
def traverseRoot (δ : Type) (es : FgtConfigDict)
    (parents : List (Tok × FgtConfigNode)) (data : δ) :
    List (TraverseEvent δ) × List (Tok × FgtConfigNode) :=
  traverseDict δ es parents data

mutual
/-- The traversal contract stated by the specification, node side: one
enter event, the child traces with the node appended to the ancestor
stack, then one leave event for a composite node; a single enter event for
a leaf node.  Every event carries the ancestor stack from the tree root
down to, but excluding, the current node, and the unchanged user data. -/
def specTrace (δ : Type) (key : Tok) (node : FgtConfigNode)
    (ancestors : List (Tok × FgtConfigNode)) (data : δ) : List (TraverseEvent δ) :=
  match node with
  | .set _ => [⟨true, (key, node), ancestors, data⟩]
  | .unset => [⟨true, (key, node), ancestors, data⟩]
  | .object es =>
    ⟨true, (key, node), ancestors, data⟩ ::
      (specTraceDict δ es (ancestors ++ [(key, node)]) data ++
        [⟨false, (key, node), ancestors, data⟩])
  | .table es =>
    ⟨true, (key, node), ancestors, data⟩ ::
      (specTraceDict δ es (ancestors ++ [(key, node)]) data ++
        [⟨false, (key, node), ancestors, data⟩])

/-- The traversal contract, children side: concatenation of the child
traces in insertion order, all with the same ancestor stack. -/
def specTraceDict (δ : Type) (es : FgtConfigDict)
    (ancestors : List (Tok × FgtConfigNode)) (data : δ) : List (TraverseEvent δ) :=
  match es with
  | .nil => []
  | .cons k v t =>
    specTrace δ k v ancestors data ++ specTraceDict δ t ancestors data
end

mutual
/-- Helper: a node traversal produces exactly the specified trace and
restores the parents deque. -/
theorem traverseNode_eq (δ : Type) (key : Tok) (node : FgtConfigNode)
    (parents : List (Tok × FgtConfigNode)) (data : δ) :
    traverseNode δ key node parents data = (specTrace δ key node parents data, parents) := by
  match node with
  | .set ps => rfl
  | .unset => rfl
  | .object es =>
    have h := traverseDict_eq δ es (parents ++ [(key, FgtConfigNode.object es)]) data
    simp only [traverseNode, specTrace, h, List.dropLast_concat]
  | .table es =>
    have h := traverseDict_eq δ es (parents ++ [(key, FgtConfigNode.table es)]) data
    simp only [traverseNode, specTrace, h, List.dropLast_concat]

/-- Helper: the children loop produces the concatenated child traces and
restores the parents deque. -/
theorem traverseDict_eq (δ : Type) (es : FgtConfigDict)
    (parents : List (Tok × FgtConfigNode)) (data : δ) :
    traverseDict δ es parents data = (specTraceDict δ es parents data, parents) := by
  match es with
  | .nil => rfl
  | .cons k v t =>
    have h1 := traverseNode_eq δ k v parents data
    have h2 := traverseDict_eq δ t parents data
    simp only [traverseDict, specTraceDict, h1, h2]
end

/-- Claim C7: for every configuration tree, traverse invokes the callback
exactly once with the enter flag and exactly once with the leave flag for
each Object/Table node, visiting children in insertion order between the
two, and exactly once with the enter flag (never with the leave flag) for
each Set/Unset node; each invocation receives the node's (key, node) pair,
the stack of ancestor (key, node) pairs from the tree root down to but
excluding the current node, and the caller's user-data value unchanged.
This is stated as: the recorded event trace of the embedded traverse is
exactly the specification trace specTrace / specTraceDict, both for a
traversal started on a node and for FgtConfigRoot.traverse, which visits
only the children of the root. -/
theorem traverse_matches_contract (δ : Type) (key : Tok) (node : FgtConfigNode)
    (es : FgtConfigDict) (data : δ) :
    traverseNode δ key node [] data = (specTrace δ key node [] data, []) ∧
      traverseRoot δ es [] data = (specTraceDict δ es [] data, []) :=
  ⟨traverseNode_eq δ key node [] data, traverseDict_eq δ es [] data⟩

/-- Claim C10: traverse restores the ancestor stack: after a node's
traversal the parents deque holds exactly the items it held before the
call, and every sibling subtree is traversed with an identical ancestor
stack — the trace of a children loop equals the concatenation of the child
traces all computed from the same initial stack, with that same stack as
the final deque contents. -/
theorem traverse_stack_restored (δ : Type) (key k : Tok) (node v : FgtConfigNode)
    (t : FgtConfigDict) (parents : List (Tok × FgtConfigNode)) (data : δ) :
    (traverseNode δ key node parents data).2 = parents ∧
      traverseDict δ (.cons k v t) parents data =
        ((traverseNode δ k v parents data).1 ++ (traverseDict δ t parents data).1,
          parents) := by
  refine ⟨by rw [traverseNode_eq], ?_⟩
  rw [traverseDict_eq, traverseNode_eq, traverseDict_eq]
  simp [specTraceDict]

/-- A parsed FortiGate configuration (class FgtConfig of _config.py): the
leading comment lines, the default root dictionary and the per-tenant vdom
root dictionaries (empty when vdoms are not used).  The indent width
self._indent is the constant 4. -/
structure FgtConfig where
  comments : List Tok
  root : FgtConfigDict
  vdoms : List (Tok × FgtConfigDict)
deriving DecidableEq

/-- The filter callback type FgtConfigFilterCallback: current item, stack
of parent nodes, user data. -/
abbrev FilterFn (δ : Type) :=
  (Tok × FgtConfigNode) → List (Tok × FgtConfigNode) → δ → Bool

/-- Single space joining used by "set {key} {' '.join(value.params)}". -/
def joinSp : List Tok → Tok
  | [] => []
  | [t] => t
  | t :: ts => t ++ ' ' :: joinSp ts

/-- Is the last stack entry an FgtConfigObject?  (isinstance test of
append_entry on parents[-1][1].) -/
def lastIsObject : List (Tok × FgtConfigNode) → Bool
  | ps =>
    match ps.getLast? with
    | some (_, .object _) => true
    | _ => false

/-- The body of FgtConfig.make_config.append_entry applied to one recorded
traversal event: the produced line (indentation spaces included), or none
when the item is skipped.  Mirrors the source exactly: the entry is
skipped when a filter is supplied and the filter returns False — the code
reads "if item_filter and not item_filter(item, parents, data): return" —
and a composite node produces a config/end line when the parents stack is
empty or ends in an object, and an edit/next line otherwise. -/
def appendEntry (δ : Type) (filt : Option (FilterFn δ)) (data : δ) (indent : Nat)
    (beginOfSection : Bool) (item : Tok × FgtConfigNode)
    (parents : List (Tok × FgtConfigNode)) : Option Tok :=
  if (match filt with
      | some f => !(f item parents data)
      | none => false) then
    none
  else
    let line : Tok :=
      match item.2 with
      | .set ps => "set ".toList ++ item.1 ++ " ".toList ++ joinSp ps
      | .unset => "unset ".toList ++ item.1
      | .object _ =>
        if parents = [] || lastIsObject parents then
          (if beginOfSection then "config ".toList ++ item.1 else "end".toList)
        else
          (if beginOfSection then "edit ".toList ++ item.1 else "next".toList)
      | .table _ =>
        if parents = [] || lastIsObject parents then
          (if beginOfSection then "config ".toList ++ item.1 else "end".toList)
        else
          (if beginOfSection then "edit ".toList ++ item.1 else "next".toList)
    some (List.replicate (parents.length * indent) ' ' ++ line)

/-- The lines produced for one root dictionary by make_config: the root is
traversed with append_entry as the callback and the produced lines are
collected in order. -/
def sectionLines (δ : Type) (filt : Option (FilterFn δ)) (data : δ)
    (es : FgtConfigDict) : List Tok :=
  (traverseRoot Unit es [] ()).1.filterMap
    (fun ev => appendEntry δ filt data 4 ev.enter ev.item ev.parents)

/-- FgtConfig.make_config: the configuration as a list of lines.  When
vdoms exist the output is a synthetic declare-only config vdom block, a
config global block around the default root, then one config vdom / edit
block per tenant; otherwise it is the traversal of the root alone. -/
def makeConfig (δ : Type) (cfg : FgtConfig) (filt : Option (FilterFn δ))
    (data : δ) : List Tok :=
  if cfg.vdoms.length > 0 then
    [[], "config vdom".toList] ++
      (cfg.vdoms.flatMap (fun kv => ["edit ".toList ++ kv.1, "next".toList])) ++
      ["end".toList, [], "config global".toList] ++
      sectionLines δ filt data cfg.root ++
      ["end".toList, []] ++
      (cfg.vdoms.flatMap (fun kv =>
        ["config vdom".toList, "edit ".toList ++ kv.1] ++
          sectionLines δ filt data kv.2 ++ ["end".toList, []]))
  else
    sectionLines δ filt data cfg.root

/-- The configuration used to exhibit the filter behaviour: one section
holding a single set command. -/
def filterDemoConfig : FgtConfig :=
  ⟨[], .cons "system console".toList
        (.object (.cons "status".toList (.set ["enable".toList]) .nil)) .nil, []⟩

/-- Claim C2 (divergence witness): the source skips a node exactly when the
filter callback returns False, the opposite of its own documentation and of
the specification.  With the constant-true filter — which the claim says
must suppress every node — make_config emits all three lines of the demo
configuration, and with the constant-false filter it emits nothing. -/
theorem c2_filter_semantics_inverted :
    makeConfig Unit filterDemoConfig (some (fun _ _ _ => true)) () =
      ["config system console".toList, "    set status enable".toList, "end".toList] ∧
    makeConfig Unit filterDemoConfig (some (fun _ _ _ => false)) () = [] := by
  constructor
  · rfl
  · rfl

/-- Errors raised by the typed accessors of FgtConfigObject. -/
inductive AccErr where
  | keyError
  | typeError
  | valueError
  | indexError
deriving DecidableEq

/-- FgtConfigObject.c_set called without a default: self[key] raises
KeyError when the key is absent; a TypeError is raised unless the stored
node is a FgtConfigSet. -/
def c_set (es : FgtConfigDict) (key : Tok) : Except AccErr (List Tok) :=
  match dictGet key es with
  | none => .error .keyError
  | some (.set ps) => .ok ps
  | some _ => .error .typeError

/-- FgtConfigObject.opt: the try block calls c_set and raises ValueError
when the set holds more than one value; only KeyError is caught, and is
replaced by the default when one was supplied and re-raised otherwise; the
final return config_set[0] raises IndexError on an empty set. -/
def opt (es : FgtConfigDict) (key : Tok) (default : Option Tok) : Except AccErr Tok :=
  match c_set es key with
  | .error .keyError =>
    (match default with
     | none => .error .keyError
     | some d => .ok d)
  | .error e => .error e
  | .ok ps =>
    if ps.length > 1 then .error .valueError
    else
      match ps with
      | [] => .error .indexError
      | p :: _ => .ok p

/-- Claim C9: for every Object node, key string and default value: opt
returns the single value of the Set stored under the key when that Set
holds exactly one value; raises an error when the stored Set holds more
than one value; when the key is absent it returns the supplied default, or
raises a not-found error when no default was supplied; and when the stored
node is not a Set it raises a type error regardless of whether a default
was supplied. -/
theorem opt_accessor_contract (es : FgtConfigDict) (key : Tok) (default : Option Tok)
    (d p : Tok) (ps : List Tok) (n : FgtConfigNode) :
    (dictGet key es = some (.set [p]) → opt es key default = .ok p) ∧
    (dictGet key es = some (.set ps) → ps.length > 1 →
      opt es key default = .error .valueError) ∧
    (dictGet key es = none → opt es key none = .error .keyError) ∧
    (dictGet key es = none → opt es key (some d) = .ok d) ∧
    (dictGet key es = some n → (∀ qs, n ≠ .set qs) →
      opt es key default = .error .typeError) := by
  refine ⟨?_, ?_, ?_, ?_, ?_⟩
  · intro h
    simp [opt, c_set, h]
  · intro h hlen
    simp [opt, c_set, h, if_pos hlen]
  · intro h
    simp [opt, c_set, h]
  · intro h
    simp [opt, c_set, h]
  · intro h hn
    have hcs : c_set es key = .error .typeError := by
      rw [c_set, h]
      match n, hn with
      | .set qs, hn => exact absurd rfl (hn qs)
      | .unset, _ => rfl
      | .object es', _ => rfl
      | .table es', _ => rfl
    simp [opt, hcs]

/-- Witness for claim C9 at concrete inputs: a dictionary holding a
one-value set, a two-value set, and an object, probed for each of the five
behaviours. -/
theorem opt_accessor_contract_witness :
    opt (.cons ['a'] (.set [['v']]) .nil) ['a'] none = .ok ['v'] ∧
    opt (.cons ['b'] (.set [['v'], ['w']]) .nil) ['b'] (some ['d']) =
      .error .valueError ∧
    opt (.cons ['a'] (.set [['v']]) .nil) ['z'] none = .error .keyError ∧
    opt (.cons ['a'] (.set [['v']]) .nil) ['z'] (some ['d']) = .ok ['d'] ∧
    opt (.cons ['c'] (.object .nil) .nil) ['c'] (some ['d']) = .error .typeError :=
  ⟨(opt_accessor_contract (.cons ['a'] (.set [['v']]) .nil) ['a'] none ['d'] ['v'] []
      .unset).1 (by decide),
   (opt_accessor_contract (.cons ['b'] (.set [['v'], ['w']]) .nil) ['b'] (some ['d'])
      ['d'] ['v'] [['v'], ['w']] .unset).2.1 (by decide) (by decide),
   (opt_accessor_contract (.cons ['a'] (.set [['v']]) .nil) ['z'] none ['d'] ['v'] []
      .unset).2.2.1 (by decide),
   (opt_accessor_contract (.cons ['a'] (.set [['v']]) .nil) ['z'] (some ['d']) ['d'] ['v']
      [] .unset).2.2.2.1 (by decide),
   (opt_accessor_contract (.cons ['c'] (.object .nil) .nil) ['c'] (some ['d']) ['d'] ['v']
      [] (.object .nil)).2.2.2.2 (by decide) (by intro qs h; cases h)⟩

/-- Errors raised during parsing; each constructor names the error message
of the corresponding raise in _parser.py (stream positions never influence
control flow and are not modelled).  fuelExhausted is the artificial
out-of-fuel outcome of the embedded loops; it never occurs when enough
fuel is supplied. -/
inductive PErr where
  | unbalancedQuote
  | escapeError
  | unexpectedComment
  | invalidSetCommand
  | invalidUnsetCommand
  | invalidEntry (tok : Tok)
  | invalidConfig
  | invalidTableConfig
  | eosError
  | typeError
  | valueError
  | keyError
  | fuelExhausted
deriving DecidableEq

deriving instance DecidableEq for Except

/-- The lexer state: the remaining characters of the input stream, with the
one-character pushback of Lexer._unget already prepended, and the one-token
pushback slot self._token of Lexer.push_token. -/
structure LexState where
  input : List Char
  pushed : Option Tok
deriving DecidableEq

/-- Lexer._next_ns: the next character that is not a space, where the
newline is a delimiter and not a space; none is the end of stream.  The
remaining stream is returned alongside. -/
def nextNS : List Char → Option Char × List Char
  | [] => (none, [])
  | c :: r => if pyIsSpace c && !(c = '\n') then nextNS r else (some c, r)

/-- The comment branch of Lexer.next_token, started at the '#' character:
accumulate characters up to the end of line; the terminating newline is
consumed and dropped (an end of stream simply stops the scan). -/
def scanComment : List Char → Tok × List Char
  | [] => ([], [])
  | c :: r =>
    if c = '\n' then ([], r)
    else
      let q := scanComment r
      (c :: q.1, q.2)

/-- The quoted-string branch of Lexer.next_token, after the opening quote
has been consumed: a backslash always consumes exactly one following
character and both are kept verbatim; an unescaped double quote terminates
the token and is kept; an end of stream is the unbalanced-quote error, an
end of stream directly after a backslash is the escape error. -/
def scanQuoted : List Char → Except PErr (Tok × List Char)
  | [] => .error .unbalancedQuote
  | c :: r =>
    if c = bsC then
      match r with
      | [] => .error .escapeError
      | c2 :: r2 =>
        match scanQuoted r2 with
        | .error e => .error e
        | .ok q => .ok (bsC :: c2 :: q.1, q.2)
    else if c = dqC then .ok ([dqC], r)
    else
      match scanQuoted r with
      | .error e => .error e
      | .ok q => .ok (c :: q.1, q.2)

/-- The word branch of Lexer.next_token: accumulate characters that are
neither spaces nor the end of line, then push the terminating character
back (so it stays at the head of the remaining stream). -/
def scanWord (c : Char) (r : List Char) : Tok × List Char :=
  (c :: r.takeWhile (fun x => !pyIsSpace x), r.dropWhile (fun x => !pyIsSpace x))

/-- Lexer._is_eol on a token: the end-of-line token or the empty
end-of-stream token. -/
def isEolTok (t : Tok) : Bool := t = ['\n'] || t = []

/-- Lexer.is_eos on a token: the empty end-of-stream token. -/
def isEosTok (t : Tok) : Bool := t = []

/-- Lexer.is_comment: the token starts with the '#' character. -/
def isCommentTok (t : Tok) : Bool := t.head? = some '#'

/-- Lexer.next_token: the pushed-back token when one is present, otherwise
the end-of-stream (empty) token, an end-of-line token, a comment token, a
quoted string or a word. -/
def nextToken (st : LexState) : Except PErr (Tok × LexState) :=
  match st.pushed with
  | some t => .ok (t, ⟨st.input, none⟩)
  | none =>
    match nextNS st.input with
    | (none, r) => .ok ([], ⟨r, none⟩)
    | (some c, r) =>
      if c = '\n' then .ok (['\n'], ⟨r, none⟩)
      else if c = '#' then
        let q := scanComment (c :: r)
        .ok (q.1, ⟨q.2, none⟩)
      else if c = dqC then
        match scanQuoted r with
        | .error e => .error e
        | .ok q => .ok (dqC :: q.1, ⟨q.2, none⟩)
      else
        let w := scanWord c r
        .ok (w.1, ⟨w.2, none⟩)

/-- Lexer.next_parameters (fuelled): all tokens up to the next end of line;
the end of line itself is consumed and not returned; a comment token is
the unexpected-comment syntax error. -/
def nextParameters : Nat → LexState → Except PErr (List Tok × LexState)
  | 0, _ => .error .fuelExhausted
  | fuel + 1, st =>
    match nextToken st with
    | .error e => .error e
    | .ok (t, st') =>
      if isEolTok t then .ok ([], st')
      else if isCommentTok t then .error .unexpectedComment
      else
        match nextParameters fuel st' with
        | .error e => .error e
        | .ok (ts, st'') => .ok (t :: ts, st'')

/-- Lexer.next_snl_token (fuelled): skip end-of-line tokens and return the
next token; with raiseEos set, an end of stream becomes the end-of-stream
error, otherwise the end-of-stream token is returned. -/
def nextSnlToken : Nat → Bool → LexState → Except PErr (Tok × LexState)
  | 0, _, _ => .error .fuelExhausted
  | fuel + 1, raiseEos, st =>
    match nextToken st with
    | .error e => .error e
    | .ok (t, st') =>
      if isEolTok t && !isEosTok t then nextSnlToken fuel raiseEos st'
      else if raiseEos && isEosTok t then .error .eosError
      else .ok (t, st')

/-- A word token that the lexer reproduces exactly as written: non-empty,
no space characters, and not starting with the comment or quote
character. -/
def goodWord (t : Tok) : Bool :=
  !(t = []) && t.all (fun c => !pyIsSpace c) && !(t.head? = some '#') &&
    !(t.head? = some dqC)

/-- The body of a well-formed quoted token (the part between the quotes):
every backslash is followed by one more character and no unescaped double
quote occurs. -/
def goodQBody : List Char → Bool
  | [] => true
  | c :: r =>
    if c = bsC then
      match r with
      | [] => false
      | _ :: r2 => goodQBody r2
    else !(c = dqC) && goodQBody r

/-- A quoted token that the lexer reproduces exactly as written: an opening
quote, a well-formed body, a closing quote. -/
def goodQuoted (t : Tok) : Bool :=
  match t with
  | [] => false
  | c :: r => c = dqC && !(r = []) && r.getLast? = some dqC && goodQBody r.dropLast

/-- A token the lexer reproduces exactly: a good word or a good quoted
string. -/
def goodTok (t : Tok) : Bool := goodWord t || goodQuoted t

/-- Padding of spaces other than newline, skipped silently between
tokens. -/
def padOk (pad : List Char) : Bool := pad.all (fun c => pyIsSpace c && !(c = '\n'))

/-- Blank space, newlines included, skipped by next_snl_token. -/
def blankOk (b : List Char) : Bool := b.all pyIsSpace

/-- The stream directly after a word token must start with a space (or
end), since the word scan only stops on a space; the quoted scan stops by
itself on the closing quote. -/
def sepSp : List Char → Bool
  | [] => true
  | x :: _ => pyIsSpace x

theorem goodQuoted_decomp (t : Tok) (h : goodQuoted t = true) :
    ∃ body, t = dqC :: (body ++ [dqC]) ∧ goodQBody body = true := by
  match t with
  | [] => simp [goodQuoted] at h
  | c :: r =>
    simp only [goodQuoted, Bool.and_eq_true, decide_eq_true_eq, Bool.not_eq_true'] at h
    obtain ⟨⟨⟨hc, hr⟩, hlast⟩, hbody⟩ := h
    refine ⟨r.dropLast, ?_, hbody⟩
    have hrne : r ≠ [] := by simpa using hr
    have := List.dropLast_append_getLast hrne
    rw [hc]
    rw [List.getLast?_eq_getLast r hrne] at hlast
    have hlast2 : r.getLast hrne = dqC := by
      injection hlast
    rw [← hlast2]
    rw [this]

theorem scanQuoted_nil : scanQuoted [] = .error .unbalancedQuote := rfl

theorem scanQuoted_bs_nil : scanQuoted [bsC] = .error .escapeError := rfl

theorem scanQuoted_bs_cons (c2 : Char) (r2 : List Char) :
    scanQuoted (bsC :: c2 :: r2) =
      (match scanQuoted r2 with
       | .error e => .error e
       | .ok q => .ok (bsC :: c2 :: q.1, q.2)) := rfl

theorem scanQuoted_dq (r : List Char) : scanQuoted (dqC :: r) = .ok ([dqC], r) := by
  rw [scanQuoted.eq_def]
  dsimp only
  rw [if_neg dq_ne_bs, if_pos rfl]

theorem scanQuoted_other (c : Char) (r : List Char) (h1 : ¬c = bsC) (h2 : ¬c = dqC) :
    scanQuoted (c :: r) =
      (match scanQuoted r with
       | .error e => .error e
       | .ok q => .ok (c :: q.1, q.2)) := by
  rw [scanQuoted.eq_def]
  dsimp only
  rw [if_neg h1, if_neg h2]

theorem goodQBody_bs (r : List Char) (h : goodQBody (bsC :: r) = true) :
    ∃ c2 r2, r = c2 :: r2 ∧ goodQBody r2 = true := by
  match r with
  | [] => simp [goodQBody] at h
  | c2 :: r2 =>
    refine ⟨c2, r2, rfl, ?_⟩
    rw [goodQBody.eq_def] at h
    dsimp only at h
    rw [if_pos rfl] at h
    exact h

theorem goodQBody_other (c : Char) (r : List Char) (hb : ¬c = bsC)
    (h : goodQBody (c :: r) = true) : ¬(c = dqC) ∧ goodQBody r = true := by
  rw [goodQBody.eq_def] at h
  dsimp only at h
  rw [if_neg hb] at h
  simp only [Bool.and_eq_true, Bool.not_eq_true'] at h
  exact ⟨of_decide_eq_false h.1, h.2⟩

theorem scanQuoted_closes : ∀ (body rest : List Char), goodQBody body = true →
    scanQuoted (body ++ dqC :: rest) = .ok (body ++ [dqC], rest)
  | [], rest, _ => by
    simp only [List.nil_append]
    rw [scanQuoted_dq]
  | c :: r, rest, h => by
    by_cases hb : c = bsC
    · subst hb
      obtain ⟨c2, r2, rfl, h2⟩ := goodQBody_bs r h
      have ih := scanQuoted_closes r2 rest h2
      simp only [List.cons_append]
      rw [scanQuoted_bs_cons, ih]
    · obtain ⟨hd, h2⟩ := goodQBody_other c r hb h
      have ih := scanQuoted_closes r rest h2
      simp only [List.cons_append]
      rw [scanQuoted_other c _ hb hd, ih]

theorem scanQuoted_unbalanced : ∀ (body : List Char), goodQBody body = true →
    scanQuoted body = .error .unbalancedQuote
  | [], _ => rfl
  | c :: r, h => by
    by_cases hb : c = bsC
    · subst hb
      obtain ⟨c2, r2, rfl, h2⟩ := goodQBody_bs r h
      have ih := scanQuoted_unbalanced r2 h2
      rw [scanQuoted_bs_cons, ih]
    · obtain ⟨hd, h2⟩ := goodQBody_other c r hb h
      have ih := scanQuoted_unbalanced r h2
      rw [scanQuoted_other c _ hb hd, ih]

theorem scanQuoted_escape : ∀ (body : List Char), goodQBody body = true →
    scanQuoted (body ++ [bsC]) = .error .escapeError
  | [], _ => by
    simp only [List.nil_append]
    exact scanQuoted_bs_nil
  | c :: r, h => by
    by_cases hb : c = bsC
    · subst hb
      obtain ⟨c2, r2, rfl, h2⟩ := goodQBody_bs r h
      have ih := scanQuoted_escape r2 h2
      simp only [List.cons_append] at ih ⊢
      rw [scanQuoted_bs_cons, ih]
    · obtain ⟨hd, h2⟩ := goodQBody_other c r hb h
      have ih := scanQuoted_escape r h2
      simp only [List.cons_append] at ih ⊢
      rw [scanQuoted_other c _ hb hd, ih]

theorem nextNS_nil : nextNS [] = (none, []) := rfl

theorem nextNS_skip (c : Char) (s : List Char) (h1 : pyIsSpace c = true)
    (h2 : ¬c = '\n') : nextNS (c :: s) = nextNS s := by
  rw [nextNS.eq_def]
  dsimp only
  rw [if_pos (by simp [h1, h2])]

theorem nextNS_nonspace (c : Char) (s : List Char) (h : pyIsSpace c = false) :
    nextNS (c :: s) = (some c, s) := by
  rw [nextNS.eq_def]
  dsimp only
  rw [if_neg (by simp [h])]

theorem nextNS_newline (s : List Char) : nextNS ('\n' :: s) = (some '\n', s) := by
  rw [nextNS.eq_def]
  dsimp only
  rw [if_neg (by simp)]

theorem nextNS_pad (pad s : List Char) (hp : padOk pad = true) :
    nextNS (pad ++ s) = nextNS s := by
  induction pad with
  | nil => rfl
  | cons c cs ih =>
    simp only [padOk, List.all_cons, Bool.and_eq_true, Bool.not_eq_true'] at hp
    simp only [List.cons_append]
    rw [nextNS_skip c _ hp.1.1 (of_decide_eq_false hp.1.2), ih hp.2]

theorem takeWhile_all_append (p : Char → Bool) (w rest : List Char)
    (h : w.all p = true) : (w ++ rest).takeWhile p = w ++ rest.takeWhile p := by
  induction w with
  | nil => rfl
  | cons c cs ih =>
    simp only [List.all_cons, Bool.and_eq_true] at h
    simp [List.takeWhile_cons, h.1, ih h.2]

theorem dropWhile_all_append (p : Char → Bool) (w rest : List Char)
    (h : w.all p = true) : (w ++ rest).dropWhile p = rest.dropWhile p := by
  induction w with
  | nil => rfl
  | cons c cs ih =>
    simp only [List.all_cons, Bool.and_eq_true] at h
    simp [List.dropWhile_cons, h.1, ih h.2]

theorem goodWord_decomp (t : Tok) (h : goodWord t = true) :
    ∃ c w, t = c :: w ∧ pyIsSpace c = false ∧ ¬c = '#' ∧ ¬c = dqC ∧
      w.all (fun x => !pyIsSpace x) = true := by
  match t with
  | [] => simp [goodWord] at h
  | c :: w =>
    simp only [goodWord, List.all_cons, List.head?, Bool.and_eq_true,
      Bool.not_eq_true'] at h
    obtain ⟨⟨⟨-, hfc, hwall⟩, hc⟩, hd⟩ := h
    refine ⟨c, w, rfl, hfc, ?_, ?_, hwall⟩
    · intro e
      exact of_decide_eq_false hc (by rw [e])
    · intro e
      exact of_decide_eq_false hd (by rw [e])

theorem sepSp_takeWhile (rest : List Char) (hs : sepSp rest = true) :
    rest.takeWhile (fun x => !pyIsSpace x) = [] := by
  match rest with
  | [] => rfl
  | x :: xs =>
    simp only [sepSp] at hs
    simp [List.takeWhile_cons, hs]

theorem sepSp_dropWhile (rest : List Char) (hs : sepSp rest = true) :
    rest.dropWhile (fun x => !pyIsSpace x) = rest := by
  match rest with
  | [] => rfl
  | x :: xs =>
    simp only [sepSp] at hs
    simp [List.dropWhile_cons, hs]

theorem nextToken_pushed (s : List Char) (t : Tok) :
    nextToken ⟨s, some t⟩ = .ok (t, ⟨s, none⟩) := rfl

/-- A good token preceded by space padding and followed by a space (or by
nothing, or by anything at all for a quoted token, which terminates by its
closing quote) is returned exactly, leaving exactly the rest. -/
theorem nextToken_good (pad : List Char) (t : Tok) (rest : List Char)
    (hp : padOk pad = true) (ht : goodTok t = true) (hs : sepSp rest = true) :
    nextToken ⟨pad ++ (t ++ rest), none⟩ = .ok (t, ⟨rest, none⟩) := by
  simp only [goodTok, Bool.or_eq_true] at ht
  rcases ht with hw | hq
  · obtain ⟨c, w, rfl, hcs, hch, hcq, hall⟩ := goodWord_decomp _ hw
    simp only [nextToken]
    rw [List.cons_append, nextNS_pad _ _ hp, nextNS_nonspace c _ hcs]
    dsimp only
    rw [if_neg (fun e => by rw [e] at hcs; simp [pyIsSpace] at hcs), if_neg hch,
      if_neg hcq]
    simp only [scanWord]
    rw [takeWhile_all_append _ _ _ hall, dropWhile_all_append _ _ _ hall,
      sepSp_takeWhile _ hs, sepSp_dropWhile _ hs]
    simp
  · obtain ⟨body, rfl, hbody⟩ := goodQuoted_decomp _ hq
    simp only [nextToken]
    have hstream : (dqC :: (body ++ [dqC])) ++ rest = dqC :: (body ++ dqC :: rest) := by
      simp
    rw [hstream, nextNS_pad _ _ hp, nextNS_nonspace dqC _ (by decide)]
    dsimp only
    rw [if_neg (by decide), if_neg (by decide), if_pos rfl]
    rw [scanQuoted_closes _ _ hbody]

theorem nextToken_eol (pad rest : List Char) (hp : padOk pad = true) :
    nextToken ⟨pad ++ '\n' :: rest, none⟩ = .ok (['\n'], ⟨rest, none⟩) := by
  simp only [nextToken]
  rw [nextNS_pad _ _ hp, nextNS_newline]
  dsimp only
  rw [if_pos rfl]

theorem nextToken_eos (pad : List Char) (hp : padOk pad = true) :
    nextToken ⟨pad, none⟩ = .ok ([], ⟨[], none⟩) := by
  simp only [nextToken]
  rw [show pad = pad ++ ([] : List Char) by simp, nextNS_pad _ _ hp, nextNS_nil]

/-- Claim C5: on encountering a double quote, next_token scans a
quoted-string token in which every backslash consumes exactly one following
character (even a double quote), stopping at the first unescaped closing
double quote; the returned token keeps the surrounding quotes and the
escape backslashes exactly as written; end of stream inside the quoted
string is the unbalanced-quote syntax error; end of stream immediately
after a backslash is the escape-error syntax error.  goodQBody body states
precisely that body consists of escape pairs and non-quote characters, so
the appended quote below is the first unescaped quote of the stream. -/
theorem lexer_quoted_scan (body rest : List Char) (h : goodQBody body = true) :
    nextToken ⟨dqC :: (body ++ dqC :: rest), none⟩ =
      .ok (dqC :: (body ++ [dqC]), ⟨rest, none⟩) ∧
    nextToken ⟨dqC :: body, none⟩ = .error .unbalancedQuote ∧
    nextToken ⟨dqC :: (body ++ [bsC]), none⟩ = .error .escapeError := by
  refine ⟨?_, ?_, ?_⟩
  · simp only [nextToken]
    rw [nextNS_nonspace dqC _ (by decide)]
    dsimp only
    rw [if_neg (by decide), if_neg (by decide), if_pos rfl, scanQuoted_closes _ _ h]
  · simp only [nextToken]
    rw [nextNS_nonspace dqC _ (by decide)]
    dsimp only
    rw [if_neg (by decide), if_neg (by decide), if_pos rfl, scanQuoted_unbalanced _ h]
  · simp only [nextToken]
    rw [nextNS_nonspace dqC _ (by decide)]
    dsimp only
    rw [if_neg (by decide), if_neg (by decide), if_pos rfl, scanQuoted_escape _ h]

/-- Witness for claim C5 at a concrete quoted body containing an escaped
backslash-quote pair. -/
theorem lexer_quoted_scan_witness :
    goodQBody ['a', bsC, dqC, 'b'] = true ∧
    (nextToken ⟨dqC :: (['a', bsC, dqC, 'b'] ++ dqC :: ['x']), none⟩ =
        .ok (dqC :: (['a', bsC, dqC, 'b'] ++ [dqC]), ⟨['x'], none⟩) ∧
      nextToken ⟨dqC :: ['a', bsC, dqC, 'b'], none⟩ = .error .unbalancedQuote ∧
      nextToken ⟨dqC :: (['a', bsC, dqC, 'b'] ++ [bsC]), none⟩ =
        .error .escapeError) :=
  ⟨by decide, lexer_quoted_scan ['a', bsC, dqC, 'b'] ['x'] (by decide)⟩

theorem goodTok_not_eol (t : Tok) (h : goodTok t = true) : isEolTok t = false := by
  simp only [goodTok, Bool.or_eq_true] at h
  rcases h with hw | hq
  · obtain ⟨c, w, rfl, hcs, _, _, _⟩ := goodWord_decomp _ hw
    simp only [isEolTok, Bool.or_eq_false_iff]
    constructor
    · simp only [decide_eq_false_iff_not]
      intro e
      rw [List.cons.injEq] at e
      rw [e.1] at hcs
      simp [pyIsSpace] at hcs
    · simp
  · obtain ⟨body, rfl, _⟩ := goodQuoted_decomp _ hq
    simp only [isEolTok, Bool.or_eq_false_iff]
    constructor
    · simp only [decide_eq_false_iff_not]
      intro e
      rw [List.cons.injEq] at e
      exact absurd e.1 (by decide)
    · simp
  
theorem goodTok_not_comment (t : Tok) (h : goodTok t = true) : isCommentTok t = false := by
  simp only [goodTok, Bool.or_eq_true] at h
  rcases h with hw | hq
  · obtain ⟨c, w, rfl, _, hch, _, _⟩ := goodWord_decomp _ hw
    simp only [isCommentTok, List.head?, decide_eq_false_iff_not]
    intro e
    exact hch (by injection e)
  · obtain ⟨body, rfl, _⟩ := goodQuoted_decomp _ hq
    simp only [isCommentTok, List.head?, decide_eq_false_iff_not]
    intro e
    exact absurd (by injection e : dqC = '#') (by decide)

theorem goodTok_not_eos (t : Tok) (h : goodTok t = true) : isEosTok t = false := by
  have := goodTok_not_eol t h
  simp only [isEolTok, Bool.or_eq_false_iff] at this
  simp only [isEosTok]
  exact this.2

theorem sepSp_newline (rest : List Char) : sepSp ('\n' :: rest) = true := by
  simp [sepSp, pyIsSpace]

theorem sepSp_space (rest : List Char) : sepSp (' ' :: rest) = true := by
  simp [sepSp, pyIsSpace]

theorem lineEnd_sepSp (tail rest : List Char)
    (h : tail = '\n' :: rest ∨ (tail = [] ∧ rest = [])) : sepSp tail = true := by
  rcases h with rfl | ⟨rfl, rfl⟩
  · exact sepSp_newline rest
  · rfl

theorem joinSp_nil : joinSp [] = [] := rfl

theorem joinSp_single (t : Tok) : joinSp [t] = t := rfl

theorem joinSp_cons2 (t t2 : Tok) (ts : List Tok) :
    joinSp (t :: t2 :: ts) = t ++ ' ' :: joinSp (t2 :: ts) := rfl

theorem nextParameters_step (f : Nat) (st st' : LexState) (t : Tok)
    (h : nextToken st = .ok (t, st')) (he : isEolTok t = false)
    (hc : isCommentTok t = false) :
    nextParameters (f + 1) st =
      (match nextParameters f st' with
       | .error e => .error e
       | .ok (ts, st'') => .ok (t :: ts, st'')) := by
  rw [nextParameters, h]
  simp only [he, hc, Bool.false_eq_true, if_false]

theorem nextParameters_eolStep (f : Nat) (st st' : LexState) (t : Tok)
    (h : nextToken st = .ok (t, st')) (he : isEolTok t = true) :
    nextParameters (f + 1) st = .ok ([], st') := by
  rw [nextParameters, h]
  simp only [he, if_true]

theorem nextSnl_step_tok (f : Nat) (r : Bool) (st st' : LexState) (t : Tok)
    (h : nextToken st = .ok (t, st')) (he : isEolTok t = false)
    (hes : isEosTok t = false) :
    nextSnlToken (f + 1) r st = .ok (t, st') := by
  rw [nextSnlToken, h]
  simp only [he, hes, Bool.false_and, Bool.and_false, Bool.false_eq_true, if_false]

theorem nextSnl_step_eol (f : Nat) (r : Bool) (st st' : LexState)
    (h : nextToken st = .ok (['\n'], st')) :
    nextSnlToken (f + 1) r st = nextSnlToken f r st' := by
  rw [nextSnlToken, h]
  simp only [isEolTok, isEosTok]
  simp

theorem nextSnl_step_eos_false (f : Nat) (st st' : LexState)
    (h : nextToken st = .ok ([], st')) :
    nextSnlToken (f + 1) false st = .ok ([], st') := by
  rw [nextSnlToken, h]
  simp [isEolTok, isEosTok]

theorem nextSnl_step_eos_true (f : Nat) (st st' : LexState)
    (h : nextToken st = .ok ([], st')) :
    nextSnlToken (f + 1) true st = .error .eosError := by
  rw [nextSnlToken, h]
  simp [isEolTok, isEosTok]

/-- next_parameters on a line of good tokens joined by single spaces,
preceded by space padding and terminated by a newline (or by the end of
the stream): all tokens of the line are returned and the line terminator
is consumed. -/
theorem nextParameters_line : ∀ (ts : List Tok) (fuel : Nat) (pad tail rest : List Char),
    ts.length + 1 ≤ fuel → padOk pad = true → (∀ t ∈ ts, goodTok t = true) →
    (tail = '\n' :: rest ∨ (tail = [] ∧ rest = [])) →
    nextParameters fuel ⟨pad ++ (joinSp ts ++ tail), none⟩ = .ok (ts, ⟨rest, none⟩)
  | [], fuel, pad, tail, rest, hfuel, hpad, _, htail => by
    match fuel, hfuel with
    | f + 1, _ =>
      rcases htail with rfl | ⟨rfl, rfl⟩
      · exact nextParameters_eolStep f ⟨pad ++ (joinSp [] ++ '\n' :: rest), none⟩
          ⟨rest, none⟩ ['\n']
          (by rw [joinSp_nil, List.nil_append]; exact nextToken_eol pad rest hpad) rfl
      · exact nextParameters_eolStep f ⟨pad ++ (joinSp [] ++ []), none⟩
          ⟨[], none⟩ []
          (by rw [joinSp_nil, List.nil_append, List.append_nil]
              exact nextToken_eos pad hpad) rfl
  | t :: ts, fuel, pad, tail, rest, hfuel, hpad, hgood, htail => by
    have hgt : goodTok t = true := hgood t (by simp)
    match fuel, hfuel with
    | f + 1, hfuel =>
      match ts with
      | [] =>
        rw [nextParameters_step f ⟨pad ++ (joinSp [t] ++ tail), none⟩ ⟨tail, none⟩ t
          (by rw [joinSp_single]
              exact nextToken_good pad t tail hpad hgt (lineEnd_sepSp tail rest htail))
          (goodTok_not_eol t hgt) (goodTok_not_comment t hgt)]
        have ih := nextParameters_line [] f [] tail rest (by simp at hfuel ⊢; omega) rfl
          (by intro x hx; cases hx) htail
        simp only [List.nil_append, joinSp_nil] at ih
        rw [ih]
      | t2 :: ts' =>
        rw [nextParameters_step f ⟨pad ++ (joinSp (t :: t2 :: ts') ++ tail), none⟩
          ⟨' ' :: (joinSp (t2 :: ts') ++ tail), none⟩ t
          (by rw [joinSp_cons2]
              rw [show (t ++ ' ' :: joinSp (t2 :: ts')) ++ tail =
                t ++ (' ' :: (joinSp (t2 :: ts') ++ tail)) from by simp]
              exact nextToken_good pad t _ hpad hgt (sepSp_space _))
          (goodTok_not_eol t hgt) (goodTok_not_comment t hgt)]
        have ih := nextParameters_line (t2 :: ts') f [' '] tail rest
          (by simp at hfuel ⊢; omega) rfl
          (fun x hx => hgood x (by simp at hx ⊢; tauto)) htail
        simp only [List.singleton_append] at ih
        rw [ih]

/-- next_snl_token over blank space (spaces and newlines) followed by a
good token: the token is returned, the blank is consumed. -/
theorem nextSnl_good : ∀ (blank : List Char) (fuel : Nat) (raiseEos : Bool)
    (t : Tok) (rest : List Char),
    blank.count '\n' + 1 ≤ fuel → blankOk blank = true → goodTok t = true →
    sepSp rest = true →
    nextSnlToken fuel raiseEos ⟨blank ++ (t ++ rest), none⟩ = .ok (t, ⟨rest, none⟩)
  | [], fuel, raiseEos, t, rest, hfuel, _, hgt, hsep => by
    match fuel, hfuel with
    | f + 1, _ =>
      exact nextSnl_step_tok f raiseEos ⟨[] ++ (t ++ rest), none⟩ ⟨rest, none⟩ t
        (by simpa using nextToken_good [] t rest rfl hgt hsep)
        (goodTok_not_eol t hgt) (goodTok_not_eos t hgt)
  | b :: blank', fuel, raiseEos, t, rest, hfuel, hblank, hgt, hsep => by
    simp only [blankOk, List.all_cons, Bool.and_eq_true] at hblank
    match fuel, hfuel with
    | f + 1, hfuel =>
      by_cases hnl : b = '\n'
      · subst hnl
        rw [nextSnl_step_eol f raiseEos ⟨('\n' :: blank') ++ (t ++ rest), none⟩
          ⟨blank' ++ (t ++ rest), none⟩
          (by rw [show ('\n' :: blank') ++ (t ++ rest) =
                [] ++ '\n' :: (blank' ++ (t ++ rest)) from by simp]
              exact nextToken_eol [] _ rfl)]
        exact nextSnl_good blank' f raiseEos t rest
          (by simp [List.count_cons] at hfuel ⊢; omega) hblank.2 hgt hsep
      · have hskip : nextToken ⟨(b :: blank') ++ (t ++ rest), none⟩ =
            nextToken ⟨blank' ++ (t ++ rest), none⟩ := by
          simp only [nextToken, List.cons_append]
          rw [nextNS_skip b _ hblank.1 hnl]
        have ih := nextSnl_good blank' (f + 1) raiseEos t rest
          (by simp [List.count_cons, hnl] at hfuel ⊢; omega) hblank.2 hgt hsep
        rw [nextSnlToken] at ih ⊢
        rw [hskip]
        exact ih

/-- next_snl_token at the end of the stream after blank space: the
end-of-stream token with raiseEos unset, the end-of-stream error with
raiseEos set. -/
theorem nextSnl_eos : ∀ (blank : List Char) (fuel : Nat),
    blank.count '\n' + 1 ≤ fuel → blankOk blank = true →
    nextSnlToken fuel false ⟨blank, none⟩ = .ok ([], ⟨[], none⟩) ∧
    nextSnlToken fuel true ⟨blank, none⟩ = .error .eosError
  | [], fuel, hfuel, _ => by
    match fuel, hfuel with
    | f + 1, _ =>
      exact ⟨nextSnl_step_eos_false f ⟨[], none⟩ ⟨[], none⟩ (nextToken_eos [] rfl),
        nextSnl_step_eos_true f ⟨[], none⟩ ⟨[], none⟩ (nextToken_eos [] rfl)⟩
  | b :: blank', fuel, hfuel, hblank => by
    simp only [blankOk, List.all_cons, Bool.and_eq_true] at hblank
    match fuel, hfuel with
    | f + 1, hfuel =>
      by_cases hnl : b = '\n'
      · subst hnl
        obtain ⟨ih1, ih2⟩ := nextSnl_eos blank' f
          (by simp [List.count_cons] at hfuel ⊢; omega) hblank.2
        have hstep := fun r => nextSnl_step_eol f r ⟨'\n' :: blank', none⟩
          ⟨blank', none⟩
          (by rw [show ('\n' :: blank' : List Char) = [] ++ '\n' :: blank' from by simp]
              exact nextToken_eol [] _ rfl)
        exact ⟨by rw [hstep false]; exact ih1, by rw [hstep true]; exact ih2⟩
      · obtain ⟨ih1, ih2⟩ := nextSnl_eos blank' (f + 1)
          (by simp [List.count_cons, hnl] at hfuel ⊢; omega) hblank.2
        have hskip : nextToken ⟨b :: blank', none⟩ = nextToken ⟨blank', none⟩ := by
          simp only [nextToken]
          rw [nextNS_skip b _ hblank.1 hnl]
        constructor
        · rw [nextSnlToken] at ih1 ⊢
          rw [hskip]
          exact ih1
        · rw [nextSnlToken] at ih2 ⊢
          rw [hskip]
          exact ih2

/-- next_snl_token with a pushed-back non-eol token returns it directly. -/
theorem nextSnl_pushed (fuel : Nat) (raiseEos : Bool) (s : List Char) (t : Tok)
    (h1 : 1 ≤ fuel) (h2 : isEolTok t = false) :
    nextSnlToken fuel raiseEos ⟨s, some t⟩ = .ok (t, ⟨s, none⟩) := by
  match fuel, h1 with
  | f + 1, _ =>
    refine nextSnl_step_tok f raiseEos ⟨s, some t⟩ ⟨s, none⟩ t (nextToken_pushed s t)
      h2 ?_
    simp only [isEolTok, Bool.or_eq_false_iff] at h2
    simp only [isEosTok]
    exact h2.2

/-- The reserved word vdom (FgtConfigParser.VDOM). -/
def vdomTok : Tok := "vdom".toList

/-- The end keyword. -/
def endTok : Tok := "end".toList

/-- The next keyword. -/
def nextKwTok : Tok := "next".toList

/-- The edit keyword. -/
def editTok : Tok := "edit".toList

/-- The set keyword. -/
def setTok : Tok := "set".toList

/-- The unset keyword. -/
def unsetTok : Tok := "unset".toList

/-- The config keyword. -/
def configTok : Tok := "config".toList

/-- The global key of the top-level dictionary in a vdom configuration. -/
def globalTok : Tok := "global".toList

/-- FgtConfigParser._parse_set_command: read the rest of the line; fewer
than two tokens is the invalid-set-command syntax error; otherwise the
first token is the parameter name, the remaining tokens the values. -/
def parseSetCommand (fuel : Nat) (st : LexState) :
    Except PErr ((Tok × FgtConfigNode) × LexState) :=
  match nextParameters fuel st with
  | .error e => .error e
  | .ok (tokens, st') =>
    match tokens with
    | t0 :: t1 :: trest => .ok ((t0, .set (t1 :: trest)), st')
    | _ => .error .invalidSetCommand

/-- FgtConfigParser._parse_unset_command: read the rest of the line; any
number of tokens other than exactly one is the invalid-unset-command
syntax error. -/
def parseUnsetCommand (fuel : Nat) (st : LexState) :
    Except PErr ((Tok × FgtConfigNode) × LexState) :=
  match nextParameters fuel st with
  | .error e => .error e
  | .ok (tokens, st') =>
    match tokens with
    | [t0] => .ok ((t0, .unset), st')
    | _ => .error .invalidUnsetCommand

mutual
/-- FgtConfigParser._parse_config_command: dispatch on the leading token of
a configuration command; any other leading token is the invalid-entry
syntax error naming the token. -/
def parseConfigCommand (fuel : Nat) (entry : Tok) (st : LexState) :
    Except PErr ((Tok × FgtConfigNode) × LexState) :=
  match fuel with
  | 0 => .error .fuelExhausted
  | fuel + 1 =>
    if entry = setTok then parseSetCommand fuel st
    else if entry = unsetTok then parseUnsetCommand fuel st
    else if entry = configTok then parseConfig fuel st
    else .error (.invalidEntry entry)

/-- FgtConfigParser._parse_table_entry: the edit key must be exactly one
token; the commands of the entry run to the next keyword, or to the end
keyword when the enclosing table is the vdom table, in which case the end
token is pushed back so the enclosing loop also observes it. -/
def parseTableEntry (fuel : Nat) (vdom : Bool) (st : LexState) :
    Except PErr ((Tok × FgtConfigNode) × LexState) :=
  match fuel with
  | 0 => .error .fuelExhausted
  | fuel + 1 =>
    match nextParameters fuel st with
    | .error e => .error e
    | .ok (editKey, st1) =>
      match editKey with
      | [k] =>
        (match parseEntryLoop fuel vdom st1 .nil with
         | .error e => .error e
         | .ok (config, token, st2) =>
           if vdom && token = endTok then .ok ((k, .object config), ⟨st2.input, some token⟩)
           else .ok ((k, .object config), st2))
      | _ => .error .invalidTableConfig

/-- The command loop of _parse_table_entry: parse configuration commands
until the terminator token (next, or end for a vdom table entry); the
terminator is returned with the accumulated dictionary. -/
def parseEntryLoop (fuel : Nat) (vdom : Bool) (st : LexState) (config : FgtConfigDict) :
    Except PErr (FgtConfigDict × Tok × LexState) :=
  match fuel with
  | 0 => .error .fuelExhausted
  | fuel + 1 =>
    match nextSnlToken fuel true st with
    | .error e => .error e
    | .ok (token, st1) =>
      if (token = nextKwTok) || (vdom && token = endTok) then .ok (config, token, st1)
      else
        match parseConfigCommand fuel token st1 with
        | .error e => .error e
        | .ok ((k, v), st2) => parseEntryLoop fuel vdom st2 (dictInsert k v config)

/-- FgtConfigParser._parse_config: read the config keys (at least one),
peek one token; the edit token opens a table of edit entries, any other
token a config object; both loops run to the end keyword.  The stored key
is the space-joined key token list. -/
def parseConfig (fuel : Nat) (st : LexState) :
    Except PErr ((Tok × FgtConfigNode) × LexState) :=
  match fuel with
  | 0 => .error .fuelExhausted
  | fuel + 1 =>
    match nextParameters fuel st with
    | .error e => .error e
    | .ok (configKeys, st1) =>
      match configKeys with
      | [] => .error .invalidConfig
      | k0 :: _ =>
        match nextSnlToken fuel true st1 with
        | .error e => .error e
        | .ok (token, st2) =>
          if token = editTok then
            match parseTableLoop fuel (k0 = vdomTok) token st2 .nil with
            | .error e => .error e
            | .ok (config, st3) => .ok ((joinSp configKeys, .table config), st3)
          else
            match parseObjectLoop fuel token st2 .nil with
            | .error e => .error e
            | .ok (config, st3) => .ok ((joinSp configKeys, .object config), st3)

/-- The table loop of _parse_config: parse edit entries until the end
keyword; the loop never re-checks that the separating token is edit. -/
def parseTableLoop (fuel : Nat) (vdom : Bool) (token : Tok) (st : LexState)
    (config : FgtConfigDict) : Except PErr (FgtConfigDict × LexState) :=
  match fuel with
  | 0 => .error .fuelExhausted
  | fuel + 1 =>
    if token = endTok then .ok (config, st)
    else
      match parseTableEntry fuel vdom st with
      | .error e => .error e
      | .ok ((kt, vt), st1) =>
        match nextSnlToken fuel true st1 with
        | .error e => .error e
        | .ok (token2, st2) => parseTableLoop fuel vdom token2 st2 (dictInsert kt vt config)

/-- The object loop of _parse_config: parse set/unset/config commands
until the end keyword. -/
def parseObjectLoop (fuel : Nat) (token : Tok) (st : LexState)
    (config : FgtConfigDict) : Except PErr (FgtConfigDict × LexState) :=
  match fuel with
  | 0 => .error .fuelExhausted
  | fuel + 1 =>
    if token = endTok then .ok (config, st)
    else
      match parseConfigCommand fuel token st with
      | .error e => .error e
      | .ok ((ck, cv), st1) =>
        match nextSnlToken fuel true st1 with
        | .error e => .error e
        | .ok (token2, st2) => parseObjectLoop fuel token2 st2 (dictInsert ck cv config)
end

/-- The leading-comment loop of FgtConfigParser.parse: collect the tokens
that start with the '#' character; the first other token is handed to the
statement loop. -/
def parseComments (fuel : Nat) (st : LexState) (acc : List Tok) :
    Except PErr (List Tok × Tok × LexState) :=
  match fuel with
  | 0 => .error .fuelExhausted
  | fuel + 1 =>
    match nextSnlToken fuel false st with
    | .error e => .error e
    | .ok (token, st1) =>
      if token.head? = some '#' then parseComments fuel st1 (acc ++ [token])
      else .ok (acc, token, st1)

/-- Python dict assignment on the tenant mapping vdoms_config. -/
def vdInsert (k : Tok) (v : FgtConfigDict) :
    List (Tok × FgtConfigDict) → List (Tok × FgtConfigDict)
  | [] => [(k, v)]
  | (k', v') :: t => if k' = k then (k, v) :: t else (k', v') :: vdInsert k v t

/-- The redirect loop of FgtConfigParser.parse for a top-level vdom
statement: every child must be a config object (else Python raises
TypeError); each child is stored into the tenant mapping under its name,
overwriting any earlier entry of the same name. -/
def vdomChildren : FgtConfigDict → List (Tok × FgtConfigDict) →
    Except PErr (List (Tok × FgtConfigDict))
  | .nil, acc => .ok acc
  | .cons k v t, acc =>
    match v with
    | .object es => vdomChildren t (vdInsert k es acc)
    | _ => .error .typeError

/-- The child dictionary of a composite node (the dict view that Python
iterates); only applied to parser results, which are objects or tables. -/
def nodeEntries : FgtConfigNode → FgtConfigDict
  | .object es => es
  | .table es => es
  | _ => .nil

/-- The statement loop of FgtConfigParser.parse: parse config statements
until the end of the stream; a statement whose joined name is the reserved
word vdom has its children redirected into the tenant mapping; any leading
token other than config is the invalid-entry syntax error. -/
def parseTop (fuel : Nat) (token : Tok) (st : LexState) (globalCfg : FgtConfigDict)
    (vdomsCfg : List (Tok × FgtConfigDict)) :
    Except PErr (FgtConfigDict × List (Tok × FgtConfigDict)) :=
  match fuel with
  | 0 => .error .fuelExhausted
  | fuel + 1 =>
    if token = [] then .ok (globalCfg, vdomsCfg)
    else if token = configTok then
      match parseConfig fuel st with
      | .error e => .error e
      | .ok ((k, v), st1) =>
        if k = vdomTok then
          match vdomChildren (nodeEntries v) vdomsCfg with
          | .error e => .error e
          | .ok vd =>
            match nextSnlToken fuel false st1 with
            | .error e => .error e
            | .ok (token2, st2) => parseTop fuel token2 st2 globalCfg vd
        else
          match nextSnlToken fuel false st1 with
          | .error e => .error e
          | .ok (token2, st2) => parseTop fuel token2 st2 (dictInsert k v globalCfg) vdomsCfg
    else .error (.invalidEntry token)

/-- The root extraction of FgtConfigParser.parse in the vdom case: the
value under global becomes the root dictionary (the cast of the source
performs no runtime check; building the root from a set or unset value
would fail in the dict constructor with a TypeError). -/
def rootOfNode : FgtConfigNode → Except PErr FgtConfigDict
  | .object es => .ok es
  | .table es => .ok es
  | _ => .error .typeError

/-- The validation of FgtConfig.__init__: every value of the root
dictionary is an object or a table (else ValueError). -/
def validRoot : FgtConfigDict → Bool
  | .nil => true
  | .cons _ v t =>
    (match v with
     | .object _ => true
     | .table _ => true
     | _ => false) && validRoot t

/-- FgtConfigParser.parse with the default root factory, on a character
stream: collect the leading comments, parse all top-level statements, then
use the whole top-level object as the default root when no vdoms exist and
the subtree under the global key when they do (a missing global key is
Python's KeyError), and validate the root as FgtConfig.__init__ does. -/
def parseMain (fuel : Nat) (s : List Char) : Except PErr FgtConfig :=
  match parseComments fuel ⟨s, none⟩ [] with
  | .error e => .error e
  | .ok (comments, token, st) =>
    match parseTop fuel token st .nil [] with
    | .error e => .error e
    | .ok (globalCfg, vdomsCfg) =>
      match (if vdomsCfg.length = 0 then .ok globalCfg
             else
               match dictGet globalTok globalCfg with
               | none => Except.error PErr.keyError
               | some n => rootOfNode n) with
      | .error e => .error e
      | .ok root =>
        if validRoot root then .ok ⟨comments, root, vdomsCfg⟩
        else .error .valueError

/-- Claim C8: a set line whose remainder holds fewer than two tokens is the
invalid-set-command syntax error; an unset line whose remainder holds any
number of tokens other than one is the invalid-unset-command syntax error;
an unterminated quoted string raises the unbalanced-quote error; in all
three cases the parse aborts with an error and no tree. -/
theorem malformed_commands_error (fuel : Nat) (st st' : LexState) (ts : List Tok) :
    (nextParameters fuel st = .ok (ts, st') → ts.length < 2 →
      parseSetCommand fuel st = .error .invalidSetCommand) ∧
    (nextParameters fuel st = .ok (ts, st') → ts.length ≠ 1 →
      parseUnsetCommand fuel st = .error .invalidUnsetCommand) ∧
    parseMain 99 "config a\nset status\nend".toList = .error .invalidSetCommand ∧
    parseMain 99 "config a\nunset status enable\nend".toList =
      .error .invalidUnsetCommand ∧
    parseMain 99 ("config a\nset alias ".toList ++ [dqC] ++ "abc".toList) =
      .error .unbalancedQuote := by
  refine ⟨?_, ?_, by decide, by decide, by decide⟩
  · intro h hlen
    rw [parseSetCommand, h]
    match ts, hlen with
    | [], _ => rfl
    | [t0], _ => rfl
    | t0 :: t1 :: tr, hlen => simp at hlen; omega
  · intro h hlen
    rw [parseUnsetCommand, h]
    match ts, hlen with
    | [], _ => rfl
    | [t0], hlen => simp at hlen
    | t0 :: t1 :: tr, hlen => rfl

/-- Witness for claim C8: the general conjuncts applied at concrete lexer
states. -/
theorem malformed_commands_error_witness :
    parseSetCommand 9 ⟨"status\n".toList, none⟩ = .error .invalidSetCommand ∧
    parseUnsetCommand 9 ⟨"status enable\n".toList, none⟩ =
      .error .invalidUnsetCommand :=
  ⟨(malformed_commands_error 9 ⟨"status\n".toList, none⟩ ⟨[], none⟩
      ["status".toList]).1 (by decide) (by decide),
   (malformed_commands_error 9 ⟨"status enable\n".toList, none⟩ ⟨[], none⟩
      ["status".toList, "enable".toList]).2.1 (by decide) (by decide)⟩

/-- Python "\n".join on the produced lines (used by FgtConfig.write and
by __repr__ before the text is parsed again). -/
def joinLines : List Tok → List Char
  | [] => []
  | [l] => l
  | l :: ls => l ++ '\n' :: joinLines ls


/-- The indentation prefix at nesting depth d (self._indent is 4). -/
def ind (d : Nat) : List Char := List.replicate (d * 4) ' '

mutual
/-- The lines make_config emits for one entry at depth d: a single line for
a set or unset command, and an enter line, the children lines, a leave line
for a composite; tableCtx tells whether the parent is a table (edit/next)
rather than an object or the root (config/end). -/
def entryLines (d : Nat) (tableCtx : Bool) (k : Tok) : FgtConfigNode → List Tok
  | .set ps => [ind d ++ ("set ".toList ++ k ++ " ".toList ++ joinSp ps)]
  | .unset => [ind d ++ ("unset ".toList ++ k)]
  | .object es =>
    (ind d ++ ((if tableCtx then "edit ".toList else "config ".toList) ++ k)) ::
      (bodyLines (d + 1) false es ++
        [ind d ++ (if tableCtx then "next".toList else "end".toList)])
  | .table es =>
    (ind d ++ ((if tableCtx then "edit ".toList else "config ".toList) ++ k)) ::
      (bodyLines (d + 1) true es ++
        [ind d ++ (if tableCtx then "next".toList else "end".toList)])

/-- The lines make_config emits for the children of a dictionary, in
insertion order. -/
def bodyLines (d : Nat) (tableCtx : Bool) : FgtConfigDict → List Tok
  | .nil => []
  | .cons k v t => entryLines d tableCtx k v ++ bodyLines d tableCtx t
end

/-- Each line followed by one newline (the form the parser consumes when
more lines follow). -/
def trailText : List Tok → List Char
  | [] => []
  | l :: ls => l ++ '\n' :: trailText ls

theorem trailText_append (a b : List Tok) :
    trailText (a ++ b) = trailText a ++ trailText b := by
  induction a with
  | nil => rfl
  | cons l ls ih =>
    simp only [List.cons_append, trailText, List.append_eq, ih, List.append_assoc]

theorem joinLines_append (a : List Tok) (l : Tok) (b : List Tok) :
    joinLines (a ++ (l :: b)) = trailText a ++ joinLines (l :: b) := by
  induction a with
  | nil => rfl
  | cons x xs ih =>
    match xs with
    | [] => simp only [List.nil_append, List.cons_append, joinLines, trailText,
        List.append_eq, List.append_assoc, ih]
    | y :: ys =>
      simp only [List.cons_append] at ih
      simp only [List.cons_append, joinLines, trailText, List.append_eq, ih,
        List.append_assoc]

theorem joinLines_concat_nil (a : List Tok) :
    joinLines (a ++ [[]]) = trailText a := by
  rw [joinLines_append a [] []]
  simp [joinLines]

/-- Splitting a key on spaces, the inverse of the space-joining of the
config key tokens. -/
def splitSp : List Char → List Tok
  | [] => [[]]
  | c :: r =>
    match splitSp r with
    | [] => [[c]]
    | w :: ws => if c = ' ' then [] :: w :: ws else (c :: w) :: ws

theorem splitSp_ne_nil (s : List Char) : splitSp s ≠ [] := by
  match s with
  | [] => simp [splitSp]
  | c :: r =>
    rw [splitSp.eq_def]
    dsimp only
    cases hs : splitSp r with
    | nil => simp
    | cons w ws => by_cases h : c = ' ' <;> simp [h]

theorem joinSp_splitSp (s : List Char) : joinSp (splitSp s) = s := by
  induction s with
  | nil => rfl
  | cons c r ih =>
    rw [splitSp.eq_def]
    dsimp only
    cases hs : splitSp r with
    | nil => exact absurd hs (splitSp_ne_nil r)
    | cons w ws =>
      rw [hs] at ih
      dsimp only
      by_cases h : c = ' '
      · rw [if_pos h]
        subst h
        rw [joinSp_cons2]
        simp [ih]
      · rw [if_neg h]
        match ws with
        | [] =>
          rw [joinSp_single]
          rw [joinSp_single] at ih
          simp [ih]
        | x :: xs =>
          rw [joinSp_cons2]
          rw [joinSp_cons2] at ih
          simp [← ih]

theorem splitSp_short (s : List Char) : (splitSp s).length ≤ s.length + 1 := by
  induction s with
  | nil => simp [splitSp]
  | cons c r ih =>
    rw [splitSp.eq_def]
    dsimp only
    cases hs : splitSp r with
    | nil => simp
    | cons w ws =>
      rw [hs] at ih
      dsimp only
      by_cases h : c = ' ' <;> simp [h] <;> simp at ih <;> omega

/-- A well-formed config key: every space-separated word is a token the
lexer reproduces (this also excludes empty words, leading or trailing
spaces and double spaces). -/
def wfKeyWords (k : Tok) : Bool := (splitSp k).all goodTok

mutual
/-- Well-formedness of one entry as rendered and reparsed: a set command
has a good key and at least one good value token; an unset command a good
key; a config object a well-formed key line and well-formed children; a
config table additionally is non-empty (an empty table would serialize as
an empty object) and all its entries are table entries. -/
def wfCmd : Tok → FgtConfigNode → Bool
  | k, .set ps => goodTok k && !(ps = []) && ps.all goodTok
  | k, .unset => goodTok k
  | k, .object es => wfKeyWords k && wfEntries es
  | k, .table es => wfKeyWords k && !(es = .nil) && wfTable es

/-- Well-formedness of the children of an object: every entry well formed
and no duplicate keys. -/
def wfEntries : FgtConfigDict → Bool
  | .nil => true
  | .cons k v t => wfCmd k v && !(dictHasKey k t) && wfEntries t

/-- Well-formedness of the entries of a table: every value is an object
with a good single-token edit key and well-formed children, and no
duplicate keys. -/
def wfTable : FgtConfigDict → Bool
  | .nil => true
  | .cons k v t =>
    (match v with
     | .object es => goodTok k && wfEntries es
     | _ => false) && !(dictHasKey k t) && wfTable t
end

mutual
/-- A fuel amount sufficient to parse the rendered text of one entry. -/
def entFuel : Tok → FgtConfigNode → Nat
  | k, .set ps => k.length + ps.length + 8
  | k, .unset => k.length + 8
  | k, .object es => k.length + bodyFuel es + 8
  | k, .table es => k.length + tableFuel es + 8

/-- A fuel amount sufficient for the object loop over rendered entries. -/
def bodyFuel : FgtConfigDict → Nat
  | .nil => 8
  | .cons k v t => entFuel k v + bodyFuel t + 8

/-- A fuel amount sufficient for the table loop over rendered entries. -/
def tableFuel : FgtConfigDict → Nat
  | .nil => 8
  | .cons k (.object es) t => k.length + bodyFuel es + tableFuel t + 16
  | .cons k v t => entFuel k v + tableFuel t + 16
end

/-- All keys of the first dictionary are absent from the second. -/
def freshAll : FgtConfigDict → FgtConfigDict → Bool
  | .nil, _ => true
  | .cons k _ t, acc => !(dictHasKey k acc) && freshAll t acc

theorem dictAppend_nil (a : FgtConfigDict) : dictAppend a .nil = a := by
  induction a using FgtConfigDict.inductionOn with
  | base => rfl
  | step k v t ih => simp only [dictAppend, ih]

theorem dictAppend_assoc (a b c : FgtConfigDict) :
    dictAppend (dictAppend a b) c = dictAppend a (dictAppend b c) := by
  induction a using FgtConfigDict.inductionOn with
  | base => rfl
  | step k v t ih => simp only [dictAppend, ih]

theorem dictInsert_fresh (k : Tok) (v : FgtConfigNode) (acc : FgtConfigDict)
    (h : dictHasKey k acc = false) :
    dictInsert k v acc = dictAppend acc (.cons k v .nil) := by
  induction acc using FgtConfigDict.inductionOn with
  | base => rfl
  | step k' v' t ih =>
    simp only [dictHasKey, Bool.or_eq_false_iff] at h
    simp only [dictInsert, dictAppend]
    rw [if_neg (by simpa using h.1), ih h.2]

theorem dictHasKey_insert (x k : Tok) (v : FgtConfigNode) (acc : FgtConfigDict) :
    dictHasKey x (dictInsert k v acc) = (dictHasKey x acc || decide (k = x)) := by
  induction acc using FgtConfigDict.inductionOn with
  | base => simp [dictInsert, dictHasKey]
  | step k' v' t ih =>
    simp only [dictInsert]
    by_cases h : k' = k
    · subst h
      simp only [if_pos rfl, dictHasKey]
      by_cases hx : k' = x <;> simp [hx]
    · rw [if_neg h]
      simp only [dictHasKey, ih]
      by_cases hx : k' = x <;> simp [hx, Bool.or_assoc]

theorem freshAll_insert (t acc : FgtConfigDict) (k : Tok) (v : FgtConfigNode)
    (h1 : freshAll t acc = true) (h2 : dictHasKey k t = false) :
    freshAll t (dictInsert k v acc) = true := by
  induction t using FgtConfigDict.inductionOn with
  | base => rfl
  | step k' v' t' ih =>
    simp only [freshAll, Bool.and_eq_true, Bool.not_eq_true'] at h1 ⊢
    simp only [dictHasKey, Bool.or_eq_false_iff] at h2
    refine ⟨?_, ih h1.2 h2.2⟩
    rw [dictHasKey_insert]
    simp only [h1.1, Bool.false_or]
    simp only [decide_eq_false_iff_not]
    intro e
    rw [e] at h2
    simpa using h2.1

/-- Is the node at the end of this ancestor stack a table (so that the
serializer must emit edit/next rather than config/end)? -/
def ctxOf (parents : List (Tok × FgtConfigNode)) : Bool :=
  !(decide (parents = []) || lastIsObject parents)

theorem lastIsObject_concat_object (parents : List (Tok × FgtConfigNode)) (k : Tok)
    (es : FgtConfigDict) :
    lastIsObject (parents ++ [(k, .object es)]) = true := by
  simp [lastIsObject, List.getLast?_concat]

theorem lastIsObject_concat_table (parents : List (Tok × FgtConfigNode)) (k : Tok)
    (es : FgtConfigDict) :
    lastIsObject (parents ++ [(k, .table es)]) = false := by
  simp [lastIsObject, List.getLast?_concat]

theorem ctxOf_concat_object (parents : List (Tok × FgtConfigNode)) (k : Tok)
    (es : FgtConfigDict) : ctxOf (parents ++ [(k, .object es)]) = false := by
  simp [ctxOf, lastIsObject_concat_object]

theorem ctxOf_concat_table (parents : List (Tok × FgtConfigNode)) (k : Tok)
    (es : FgtConfigDict) : ctxOf (parents ++ [(k, .table es)]) = true := by
  simp [ctxOf, lastIsObject_concat_table]

mutual
/-- Folding append_entry without a filter over the specified trace of one
node produces exactly the structural render lines of the node. -/
theorem bridgeNode (δ : Type) (data : δ) (k : Tok) (v : FgtConfigNode)
    (parents : List (Tok × FgtConfigNode)) :
    (specTrace Unit k v parents ()).filterMap
        (fun ev => appendEntry δ none data 4 ev.enter ev.item ev.parents) =
      entryLines parents.length (ctxOf parents) k v := by
  match v with
  | .set ps =>
    simp [specTrace, appendEntry, entryLines, ind]
  | .unset =>
    simp [specTrace, appendEntry, entryLines, ind]
  | .object es =>
    have hch := bridgeDict δ data es (parents ++ [(k, .object es)])
    rw [ctxOf_concat_object] at hch
    simp only [specTrace, List.filterMap_cons, List.filterMap_append, hch,
      List.length_append, List.length_singleton]
    by_cases hc : (parents = [] || lastIsObject parents) = true
    · simp only [appendEntry, entryLines, ctxOf, hc, Bool.not_true, if_true,
        if_false]
      simp [ind]
    · simp only [Bool.not_eq_true] at hc
      simp only [appendEntry, entryLines, ctxOf, hc, Bool.not_false, if_true,
        if_false]
      simp [ind]
  | .table es =>
    have hch := bridgeDict δ data es (parents ++ [(k, .table es)])
    rw [ctxOf_concat_table] at hch
    simp only [specTrace, List.filterMap_cons, List.filterMap_append, hch,
      List.length_append, List.length_singleton]
    by_cases hc : (parents = [] || lastIsObject parents) = true
    · simp only [appendEntry, entryLines, ctxOf, hc, Bool.not_true, if_true,
        if_false]
      simp [ind]
    · simp only [Bool.not_eq_true] at hc
      simp only [appendEntry, entryLines, ctxOf, hc, Bool.not_false, if_true,
        if_false]
      simp [ind]

/-- Folding append_entry without a filter over the specified trace of a
children dictionary produces the structural render lines of the
children. -/
theorem bridgeDict (δ : Type) (data : δ) (es : FgtConfigDict)
    (parents : List (Tok × FgtConfigNode)) :
    (specTraceDict Unit es parents ()).filterMap
        (fun ev => appendEntry δ none data 4 ev.enter ev.item ev.parents) =
      bodyLines parents.length (ctxOf parents) es := by
  match es with
  | .nil => rfl
  | .cons k v t =>
    have h1 := bridgeNode δ data k v parents
    have h2 := bridgeDict δ data t parents
    simp only [specTraceDict, List.filterMap_append, h1, h2, bodyLines]
end

/-- The unfiltered section lines of make_config are the structural render
lines at depth zero in object context. -/
theorem sectionLines_eq (δ : Type) (data : δ) (es : FgtConfigDict) :
    sectionLines δ none data es = bodyLines 0 false es := by
  rw [sectionLines, traverseRoot, traverseDict_eq]
  have := bridgeDict δ data es []
  simpa [ctxOf] using this

/-- The leading token of a rendered entry in object context. -/
def cmdHead : FgtConfigNode → Tok
  | .set _ => setTok
  | .unset => unsetTok
  | .object _ => configTok
  | .table _ => configTok

/-- The stream suffix a rendered entry leaves unconsumed before the
following text: a leaf line is consumed with its newline by
next_parameters, while the closing end of a composite is read as a word
whose terminating newline is pushed back. -/
def cmdPost : FgtConfigNode → List Char
  | .set _ => []
  | .unset => []
  | .object _ => ['\n']
  | .table _ => ['\n']

/-- The stream right after the leading token of a rendered entry has been
consumed, when the text after the entry is T. -/
def cmdRem (d : Nat) (k : Tok) (T : List Char) : FgtConfigNode → List Char
  | .set ps => ' ' :: (k ++ (' ' :: (joinSp ps ++ ('\n' :: T))))
  | .unset => ' ' :: (k ++ ('\n' :: T))
  | .object es =>
    ' ' :: (k ++ ('\n' :: (trailText (bodyLines (d + 1) false es) ++
      (ind d ++ (endTok ++ ('\n' :: T))))))
  | .table tes =>
    ' ' :: (k ++ ('\n' :: (trailText (bodyLines (d + 1) true tes) ++
      (ind d ++ (endTok ++ ('\n' :: T))))))

/-- The first token of a rendered children block followed by a terminator
line. -/
def bHead (term : Tok) : FgtConfigDict → Tok
  | .nil => term
  | .cons _ v _ => cmdHead v

/-- The remaining stream after that first token has been consumed. -/
def bRem (d dT : Nat) (term : Tok) (T : List Char) : FgtConfigDict → List Char
  | .nil => T
  | .cons k v t => cmdRem d k (trailText (bodyLines d false t) ++ (ind dT ++ (term ++ T))) v

/-- The first token of a rendered table block followed by its end line. -/
def tHead : FgtConfigDict → Tok
  | .nil => endTok
  | .cons _ _ _ => editTok

/-- The remaining stream after the leading edit token of a rendered table
block has been consumed. -/
def tRem (d dEnd : Nat) (T : List Char) : FgtConfigDict → List Char
  | .nil => T
  | .cons k v t =>
    ' ' :: (k ++ ('\n' :: (trailText (bodyLines (d + 1) false (nodeEntries v)) ++
      (ind d ++ (nextKwTok ++ ('\n' :: (trailText (bodyLines d true t) ++
        (ind dEnd ++ (endTok ++ T)))))))))

theorem set_sp_toList : "set ".toList = setTok ++ [' '] := rfl

theorem unset_sp_toList : "unset ".toList = unsetTok ++ [' '] := rfl

theorem config_sp_toList : "config ".toList = configTok ++ [' '] := rfl

theorem edit_sp_toList : "edit ".toList = editTok ++ [' '] := rfl

theorem goodTok_setTok : goodTok setTok = true := by decide

theorem goodTok_unsetTok : goodTok unsetTok = true := by decide

theorem goodTok_configTok : goodTok configTok = true := by decide

theorem goodTok_editTok : goodTok editTok = true := by decide

theorem goodTok_endTok : goodTok endTok = true := by decide

theorem goodTok_nextKwTok : goodTok nextKwTok = true := by decide

theorem padOk_ind (d : Nat) : padOk (ind d) = true := by
  simp only [padOk, ind, List.all_eq_true]
  intro x hx
  rw [List.eq_of_mem_replicate hx]
  decide

theorem blankOk_ind (d : Nat) : blankOk (ind d) = true := by
  simp only [blankOk, ind, List.all_eq_true]
  intro x hx
  rw [List.eq_of_mem_replicate hx]
  decide

theorem blankOk_append (a b : List Char) (ha : blankOk a = true) (hb : blankOk b = true) :
    blankOk (a ++ b) = true := by
  simp only [blankOk, List.all_append, Bool.and_eq_true]
  exact ⟨ha, hb⟩

theorem count_ind (d : Nat) : (ind d).count '\n' = 0 := by
  simp only [ind]
  induction (d * 4) with
  | zero => rfl
  | succ n ih =>
    rw [List.replicate_succ, List.count_cons, ih]
    simp

theorem count_append_nl (a b : List Char) :
    (a ++ b).count '\n' = a.count '\n' + b.count '\n' := List.count_append ..

theorem trailText_append_cons (a : List Tok) (l : Tok) (b : List Tok) :
    trailText (a ++ l :: b) = trailText a ++ (l ++ '\n' :: trailText b) := by
  rw [trailText_append]
  rfl

/-- Reading the first token of a rendered children block (possibly empty)
followed by a terminator line, across leading blank space. -/
theorem headRead (es : FgtConfigDict) (d dT : Nat) (term : Tok) (T blank : List Char)
    (fuel : Nat) (hwf : wfEntries es = true) (hterm : goodTok term = true)
    (hT : sepSp T = true) (hblank : blankOk blank = true)
    (hfuel : blank.count '\n' + 1 ≤ fuel) :
    nextSnlToken fuel true
        ⟨blank ++ (trailText (bodyLines d false es) ++ (ind dT ++ (term ++ T))), none⟩ =
      .ok (bHead term es, ⟨bRem d dT term T es, none⟩) := by
  match es with
  | .nil =>
    have h := nextSnl_good (blank ++ ind dT) fuel true term T
      (by rw [count_append_nl, count_ind]; omega)
      (blankOk_append _ _ hblank (blankOk_ind dT)) hterm hT
    simp only [bodyLines, trailText, List.nil_append, bHead, bRem]
    simpa [List.append_assoc] using h
  | .cons k v t =>
    simp only [Bool.and_eq_true, wfEntries] at hwf
    match v with
    | .set ps =>
      have h := nextSnl_good (blank ++ ind d) fuel true setTok
        (' ' :: (k ++ (' ' :: (joinSp ps ++ ('\n' :: (trailText (bodyLines d false t) ++
          (ind dT ++ (term ++ T))))))))
        (by rw [count_append_nl, count_ind]; omega)
        (blankOk_append _ _ hblank (blankOk_ind d)) goodTok_setTok (sepSp_space _)
      simp only [bodyLines, entryLines, trailText, bHead, bRem, cmdHead, cmdRem,
        List.cons_append, List.nil_append, trailText_append]
      simpa [List.append_assoc, set_sp_toList] using h
    | .unset =>
      have h := nextSnl_good (blank ++ ind d) fuel true unsetTok
        (' ' :: (k ++ ('\n' :: (trailText (bodyLines d false t) ++
          (ind dT ++ (term ++ T))))))
        (by rw [count_append_nl, count_ind]; omega)
        (blankOk_append _ _ hblank (blankOk_ind d)) goodTok_unsetTok (sepSp_space _)
      simp only [bodyLines, entryLines, trailText, bHead, bRem, cmdHead, cmdRem,
        List.cons_append, List.nil_append, trailText_append]
      simpa [List.append_assoc, unset_sp_toList] using h
    | .object es2 =>
      have h := nextSnl_good (blank ++ ind d) fuel true configTok
        (' ' :: (k ++ ('\n' :: (trailText (bodyLines (d + 1) false es2) ++
          (ind d ++ (endTok ++ ('\n' :: (trailText (bodyLines d false t) ++
            (ind dT ++ (term ++ T))))))))))
        (by rw [count_append_nl, count_ind]; omega)
        (blankOk_append _ _ hblank (blankOk_ind d)) goodTok_configTok (sepSp_space _)
      simp only [bodyLines, entryLines, trailText, bHead, bRem, cmdHead, cmdRem,
        List.cons_append, List.nil_append, trailText_append, trailText_append_cons,
        if_false, Bool.false_eq_true]
      simpa [List.append_assoc, configTok, endTok, trailText, trailText_append,
        trailText_append_cons] using h
    | .table tes =>
      have h := nextSnl_good (blank ++ ind d) fuel true configTok
        (' ' :: (k ++ ('\n' :: (trailText (bodyLines (d + 1) true tes) ++
          (ind d ++ (endTok ++ ('\n' :: (trailText (bodyLines d false t) ++
            (ind dT ++ (term ++ T))))))))))
        (by rw [count_append_nl, count_ind]; omega)
        (blankOk_append _ _ hblank (blankOk_ind d)) goodTok_configTok (sepSp_space _)
      simp only [bodyLines, entryLines, trailText, bHead, bRem, cmdHead, cmdRem,
        List.cons_append, List.nil_append, trailText_append, trailText_append_cons,
        if_false, Bool.false_eq_true]
      simpa [List.append_assoc, configTok, endTok, trailText, trailText_append,
        trailText_append_cons] using h

/-- Reading the first token of a rendered table block (possibly empty)
followed by its end line, across leading blank space. -/
theorem tHeadRead (tes : FgtConfigDict) (d dEnd : Nat) (T blank : List Char)
    (fuel : Nat) (hwf : wfTable tes = true) (hT : sepSp T = true)
    (hblank : blankOk blank = true) (hfuel : blank.count '\n' + 1 ≤ fuel) :
    nextSnlToken fuel true
        ⟨blank ++ (trailText (bodyLines d true tes) ++ (ind dEnd ++ (endTok ++ T))), none⟩ =
      .ok (tHead tes, ⟨tRem d dEnd T tes, none⟩) := by
  match tes with
  | .nil =>
    have h := nextSnl_good (blank ++ ind dEnd) fuel true endTok T
      (by rw [count_append_nl, count_ind]; omega)
      (blankOk_append _ _ hblank (blankOk_ind dEnd)) goodTok_endTok hT
    simp only [bodyLines, trailText, List.nil_append, tHead, tRem]
    simpa [List.append_assoc] using h
  | .cons k v t =>
    match v with
    | .set ps => simp [wfTable] at hwf
    | .unset => simp [wfTable] at hwf
    | .table tes2 => simp [wfTable] at hwf
    | .object es2 =>
      have h := nextSnl_good (blank ++ ind d) fuel true editTok
        (' ' :: (k ++ ('\n' :: (trailText (bodyLines (d + 1) false es2) ++
          (ind d ++ (nextKwTok ++ ('\n' :: (trailText (bodyLines d true t) ++
            (ind dEnd ++ (endTok ++ T))))))))))
        (by rw [count_append_nl, count_ind]; omega)
        (blankOk_append _ _ hblank (blankOk_ind d)) goodTok_editTok (sepSp_space _)
      simp only [bodyLines, entryLines, trailText, tHead, tRem, nodeEntries,
        List.cons_append, List.nil_append, trailText_append, trailText_append_cons,
        if_true, if_false]
      simpa [List.append_assoc, editTok, nextKwTok, trailText, trailText_append,
        trailText_append_cons] using h

/-- Statement: the rendered text of one well-formed entry parses back to
exactly that entry. -/
def cmdStmt (v : FgtConfigNode) : Prop :=
  ∀ (k : Tok) (d fuel : Nat) (T : List Char), wfCmd k v = true → entFuel k v ≤ fuel →
    parseConfigCommand fuel (cmdHead v) ⟨cmdRem d k T v, none⟩ =
      .ok ((k, v), ⟨cmdPost v ++ T, none⟩)

/-- Statement: the object loop over the rendered text of well-formed
children accumulates exactly those children and consumes the end line. -/
def objStmt (es : FgtConfigDict) : Prop :=
  ∀ (acc : FgtConfigDict) (d dEnd fuel : Nat) (T : List Char),
    wfEntries es = true → freshAll es acc = true → bodyFuel es ≤ fuel →
    sepSp T = true →
    parseObjectLoop fuel (bHead endTok es) ⟨bRem d dEnd endTok T es, none⟩ acc =
      .ok (dictAppend acc es, ⟨T, none⟩)

/-- Statement: the edit-entry command loop over the rendered text of
well-formed children stops exactly on the terminator (next, or end for a
vdom table) and accumulates the children. -/
def entStmt (es : FgtConfigDict) : Prop :=
  ∀ (acc : FgtConfigDict) (d dT fuel : Nat) (T blank : List Char) (vdom : Bool)
    (term : Tok),
    wfEntries es = true → freshAll es acc = true → bodyFuel es ≤ fuel →
    sepSp T = true → blankOk blank = true → blank.count '\n' ≤ 1 →
    (term = nextKwTok ∨ (vdom = true ∧ term = endTok)) →
    parseEntryLoop fuel vdom
        ⟨blank ++ (trailText (bodyLines d false es) ++ (ind dT ++ (term ++ T))), none⟩ acc =
      .ok (dictAppend acc es, term, ⟨T, none⟩)

/-- Statement: the table loop over the rendered text of a well-formed
table accumulates exactly its entries and consumes the end line. -/
def tabStmt (tes : FgtConfigDict) : Prop :=
  ∀ (acc : FgtConfigDict) (d dEnd fuel : Nat) (T : List Char) (vdom : Bool),
    wfTable tes = true → freshAll tes acc = true → tableFuel tes ≤ fuel →
    sepSp T = true →
    parseTableLoop fuel vdom (tHead tes) ⟨tRem d dEnd T tes, none⟩ acc =
      .ok (dictAppend acc tes, ⟨T, none⟩)

/-- The three loop statements of a dictionary. -/
def dictStmts (es : FgtConfigDict) : Prop := objStmt es ∧ entStmt es ∧ tabStmt es

/-- The node statement together with the loop statements of its
children. -/
def nodeStmts (v : FgtConfigNode) : Prop :=
  cmdStmt v ∧
    (match v with
     | .object es => dictStmts es
     | .table tes => dictStmts tes
     | _ => True)

theorem cmdHead_ne_keywords (v : FgtConfigNode) :
    ¬cmdHead v = endTok ∧ ¬cmdHead v = editTok ∧ ¬cmdHead v = nextKwTok := by
  match v with
  | .set ps =>
    exact ⟨by show ¬setTok = endTok; decide, by show ¬setTok = editTok; decide,
      by show ¬setTok = nextKwTok; decide⟩
  | .unset =>
    exact ⟨by show ¬unsetTok = endTok; decide, by show ¬unsetTok = editTok; decide,
      by show ¬unsetTok = nextKwTok; decide⟩
  | .object es =>
    exact ⟨by show ¬configTok = endTok; decide, by show ¬configTok = editTok; decide,
      by show ¬configTok = nextKwTok; decide⟩
  | .table tes =>
    exact ⟨by show ¬configTok = endTok; decide, by show ¬configTok = editTok; decide,
      by show ¬configTok = nextKwTok; decide⟩

theorem blankOk_cmdPost (v : FgtConfigNode) : blankOk (cmdPost v) = true := by
  match v with
  | .set _ => rfl
  | .unset => rfl
  | .object _ => rfl
  | .table _ => rfl

theorem count_cmdPost (v : FgtConfigNode) : (cmdPost v).count '\n' ≤ 1 := by
  match v with
  | .set _ => simp [cmdPost]
  | .unset => simp [cmdPost]
  | .object _ => simp [cmdPost]
  | .table _ => simp [cmdPost]

theorem freshAll_nil_acc (es : FgtConfigDict) : freshAll es .nil = true := by
  induction es using FgtConfigDict.inductionOn with
  | base => rfl
  | step k v t ih => simp [freshAll, dictHasKey, ih]

theorem dictAppend_insert (k : Tok) (v : FgtConfigNode) (acc t : FgtConfigDict)
    (h : dictHasKey k acc = false) :
    dictAppend (dictInsert k v acc) t = dictAppend acc (.cons k v t) := by
  rw [dictInsert_fresh k v acc h, dictAppend_assoc]
  rfl

theorem parseConfigCommand_set (f : Nat) (st : LexState) :
    parseConfigCommand (f + 1) setTok st = parseSetCommand f st := rfl

theorem parseConfigCommand_unset (f : Nat) (st : LexState) :
    parseConfigCommand (f + 1) unsetTok st = parseUnsetCommand f st := rfl

theorem parseConfigCommand_config (f : Nat) (st : LexState) :
    parseConfigCommand (f + 1) configTok st = parseConfig f st := rfl

theorem parseObjectLoop_end (f : Nat) (st : LexState) (acc : FgtConfigDict) :
    parseObjectLoop (f + 1) endTok st acc = .ok (acc, st) := rfl

theorem parseObjectLoop_step (f : Nat) (tok : Tok) (st : LexState) (acc : FgtConfigDict)
    (h : ¬tok = endTok) :
    parseObjectLoop (f + 1) tok st acc =
      (match parseConfigCommand f tok st with
       | .error e => .error e
       | .ok ((ck, cv), st1) =>
         match nextSnlToken f true st1 with
         | .error e => .error e
         | .ok (token2, st2) => parseObjectLoop f token2 st2 (dictInsert ck cv acc)) := by
  rw [parseObjectLoop]
  rw [if_neg h]

theorem parseTableLoop_end (f : Nat) (vdom : Bool) (st : LexState) (acc : FgtConfigDict) :
    parseTableLoop (f + 1) vdom endTok st acc = .ok (acc, st) := rfl

theorem parseTableLoop_step (f : Nat) (vdom : Bool) (tok : Tok) (st : LexState)
    (acc : FgtConfigDict) (h : ¬tok = endTok) :
    parseTableLoop (f + 1) vdom tok st acc =
      (match parseTableEntry f vdom st with
       | .error e => .error e
       | .ok ((kt, vt), st1) =>
         match nextSnlToken f true st1 with
         | .error e => .error e
         | .ok (token2, st2) => parseTableLoop f vdom token2 st2 (dictInsert kt vt acc)) := by
  rw [parseTableLoop]
  rw [if_neg h]

theorem parseEntryLoop_unfold (f : Nat) (vdom : Bool) (st : LexState)
    (acc : FgtConfigDict) :
    parseEntryLoop (f + 1) vdom st acc =
      (match nextSnlToken f true st with
       | .error e => .error e
       | .ok (token, st1) =>
         if (token = nextKwTok) || (vdom && token = endTok) then .ok (acc, token, st1)
         else
           match parseConfigCommand f token st1 with
           | .error e => .error e
           | .ok ((k, v), st2) => parseEntryLoop f vdom st2 (dictInsert k v acc)) := rfl

theorem parseTableEntry_unfold (f : Nat) (vdom : Bool) (st : LexState) :
    parseTableEntry (f + 1) vdom st =
      (match nextParameters f st with
       | .error e => .error e
       | .ok (editKey, st1) =>
         match editKey with
         | [k] =>
           (match parseEntryLoop f vdom st1 .nil with
            | .error e => .error e
            | .ok (config, token, st2) =>
              if vdom && token = endTok then
                .ok ((k, .object config), ⟨st2.input, some token⟩)
              else .ok ((k, .object config), st2))
         | _ => .error .invalidTableConfig) := rfl

theorem parseConfig_unfold (f : Nat) (st : LexState) :
    parseConfig (f + 1) st =
      (match nextParameters f st with
       | .error e => .error e
       | .ok (configKeys, st1) =>
         match configKeys with
         | [] => .error .invalidConfig
         | k0 :: _ =>
           match nextSnlToken f true st1 with
           | .error e => .error e
           | .ok (token, st2) =>
             if token = editTok then
               match parseTableLoop f (k0 = vdomTok) token st2 .nil with
               | .error e => .error e
               | .ok (config, st3) => .ok ((joinSp configKeys, .table config), st3)
             else
               match parseObjectLoop f token st2 .nil with
               | .error e => .error e
               | .ok (config, st3) => .ok ((joinSp configKeys, .object config), st3)) := rfl

theorem nodeStmts_set (ps : List Tok) : nodeStmts (.set ps) := by
  refine ⟨?_, trivial⟩
  intro k d fuel T hwf hfuel
  simp only [wfCmd, Bool.and_eq_true, Bool.not_eq_true', decide_eq_false_iff_not] at hwf
  obtain ⟨⟨hk, hne⟩, hall⟩ := hwf
  simp only [entFuel] at hfuel
  match fuel, hfuel with
  | f + 1, hfuel =>
    rw [show cmdHead (.set ps) = setTok from rfl, parseConfigCommand_set, parseSetCommand]
    match ps, hne with
    | p :: ps', _ =>
      have hline := nextParameters_line (k :: p :: ps') f [' '] ('\n' :: T) T
        (by simp at hfuel ⊢; omega) rfl
        (by
          intro x hx
          simp only [List.mem_cons] at hx
          rcases hx with rfl | hx
          · exact hk
          · have := List.all_eq_true.mp hall x (by simpa using hx)
            exact this)
        (Or.inl rfl)
      rw [show cmdRem d k T (.set (p :: ps')) =
          [' '] ++ (joinSp (k :: p :: ps') ++ '\n' :: T) from by
        simp [cmdRem, joinSp_cons2, List.append_assoc]]
      rw [hline]
      simp [cmdPost]

theorem nodeStmts_unset : nodeStmts .unset := by
  refine ⟨?_, trivial⟩
  intro k d fuel T hwf hfuel
  simp only [wfCmd] at hwf
  simp only [entFuel] at hfuel
  match fuel, hfuel with
  | f + 1, hfuel =>
    rw [show cmdHead .unset = unsetTok from rfl, parseConfigCommand_unset,
      parseUnsetCommand]
    have hline := nextParameters_line [k] f [' '] ('\n' :: T) T
      (by simp at hfuel ⊢; omega) rfl
      (by
        intro x hx
        simp only [List.mem_singleton] at hx
        subst hx
        exact hwf)
      (Or.inl rfl)
    rw [show cmdRem d k T .unset = [' '] ++ (joinSp [k] ++ '\n' :: T) from by
      simp [cmdRem, joinSp_single]]
    rw [hline]
    simp [cmdPost]

theorem dictStmts_nil : dictStmts .nil := by
  refine ⟨?_, ?_, ?_⟩
  · intro acc d dEnd fuel T hwf hfresh hfuel hT
    match fuel, hfuel with
    | f + 1, _ =>
      rw [show bHead endTok .nil = endTok from rfl,
        show bRem d dEnd endTok T .nil = T from rfl, parseObjectLoop_end,
        dictAppend_nil]
  · intro acc d dT fuel T blank vdom term hwf hfresh hfuel hT hblank hcount hdisj
    have hterm : goodTok term = true := by
      rcases hdisj with rfl | ⟨_, rfl⟩
      · exact goodTok_nextKwTok
      · exact goodTok_endTok
    match fuel, hfuel with
    | f + 1, hfuel =>
      rw [parseEntryLoop_unfold]
      have hsnl := nextSnl_good (blank ++ ind dT) f true term T
        (by rw [count_append_nl, count_ind]; simp [bodyFuel] at hfuel; omega)
        (blankOk_append _ _ hblank (blankOk_ind dT)) hterm hT
      rw [show blank ++ (trailText (bodyLines d false .nil) ++ (ind dT ++ (term ++ T))) =
          (blank ++ ind dT) ++ (term ++ T) from by
        simp [bodyLines, trailText, List.append_assoc]]
      rw [hsnl]
      dsimp only
      have hcond : (term = nextKwTok || vdom && term = endTok) = true := by
        rcases hdisj with rfl | ⟨hv, rfl⟩
        · simp
        · subst hv
          simp
      rw [hcond]
      simp [dictAppend_nil]
  · intro acc d dEnd fuel T vdom hwf hfresh hfuel hT
    match fuel, hfuel with
    | f + 1, _ =>
      rw [show tHead .nil = endTok from rfl, show tRem d dEnd T .nil = T from rfl,
        parseTableLoop_end, dictAppend_nil]

theorem bHead_ne_edit (es : FgtConfigDict) (term : Tok) (hterm : ¬term = editTok) :
    ¬bHead term es = editTok := by
  match es with
  | .nil => exact hterm
  | .cons k v t => exact (cmdHead_ne_keywords v).2.1

theorem wfKeyWords_goods (k : Tok) (h : wfKeyWords k = true) :
    ∀ x ∈ splitSp k, goodTok x = true := by
  intro x hx
  exact List.all_eq_true.mp h x hx

theorem nodeStmts_object (es : FgtConfigDict) (hE : dictStmts es) :
    nodeStmts (.object es) := by
  refine ⟨?_, hE⟩
  intro k d fuel T hwf hfuel
  simp only [wfCmd, Bool.and_eq_true] at hwf
  obtain ⟨hkey, hes⟩ := hwf
  simp only [entFuel] at hfuel
  match fuel, hfuel with
  | f + 1, hfuel =>
    rw [show cmdHead (.object es) = configTok from rfl, parseConfigCommand_config]
    match f, hfuel with
    | f1 + 1, hfuel =>
      rw [parseConfig_unfold]
      have hsplit := splitSp_short k
      have hline := nextParameters_line (splitSp k) f1 [' ']
        ('\n' :: (trailText (bodyLines (d + 1) false es) ++
          (ind d ++ (endTok ++ ('\n' :: T)))))
        (trailText (bodyLines (d + 1) false es) ++ (ind d ++ (endTok ++ ('\n' :: T))))
        (by omega) rfl (wfKeyWords_goods k hkey) (Or.inl rfl)
      rw [show cmdRem d k T (.object es) =
          [' '] ++ (joinSp (splitSp k) ++
            '\n' :: (trailText (bodyLines (d + 1) false es) ++
              (ind d ++ (endTok ++ ('\n' :: T))))) from by
        rw [joinSp_splitSp]
        simp [cmdRem]]
      rw [hline]
      dsimp only
      cases hsp : splitSp k with
      | nil => exact absurd hsp (splitSp_ne_nil k)
      | cons k0 ks =>
        dsimp only
        have hsnl := headRead es (d + 1) d endTok ('\n' :: T) [] f1 hes goodTok_endTok
          (sepSp_newline T) rfl (by simp only [List.count_nil]; omega)
        simp only [List.nil_append] at hsnl
        rw [hsnl]
        dsimp only
        rw [if_neg (bHead_ne_edit es endTok (by decide))]
        have hloop := hE.1 .nil (d + 1) d f1 ('\n' :: T) hes (freshAll_nil_acc es)
          (by omega) (sepSp_newline T)
        rw [hloop]
        dsimp only
        rw [show dictAppend .nil es = es from rfl, ← hsp, joinSp_splitSp]
        rfl

theorem nodeStmts_table (tes : FgtConfigDict) (hE : dictStmts tes) :
    nodeStmts (.table tes) := by
  refine ⟨?_, hE⟩
  intro k d fuel T hwf hfuel
  simp only [wfCmd, Bool.and_eq_true, Bool.not_eq_true', decide_eq_false_iff_not] at hwf
  obtain ⟨⟨hkey, hne⟩, htes⟩ := hwf
  simp only [entFuel] at hfuel
  match fuel, hfuel with
  | f + 1, hfuel =>
    rw [show cmdHead (.table tes) = configTok from rfl, parseConfigCommand_config]
    match f, hfuel with
    | f1 + 1, hfuel =>
      rw [parseConfig_unfold]
      have hsplit := splitSp_short k
      have hline := nextParameters_line (splitSp k) f1 [' ']
        ('\n' :: (trailText (bodyLines (d + 1) true tes) ++
          (ind d ++ (endTok ++ ('\n' :: T)))))
        (trailText (bodyLines (d + 1) true tes) ++ (ind d ++ (endTok ++ ('\n' :: T))))
        (by omega) rfl (wfKeyWords_goods k hkey) (Or.inl rfl)
      rw [show cmdRem d k T (.table tes) =
          [' '] ++ (joinSp (splitSp k) ++
            '\n' :: (trailText (bodyLines (d + 1) true tes) ++
              (ind d ++ (endTok ++ ('\n' :: T))))) from by
        rw [joinSp_splitSp]
        simp [cmdRem]]
      rw [hline]
      dsimp only
      cases hsp : splitSp k with
      | nil => exact absurd hsp (splitSp_ne_nil k)
      | cons k0 ks =>
        dsimp only
        have hsnl := tHeadRead tes (d + 1) d ('\n' :: T) [] f1 htes
          (sepSp_newline T) rfl (by simp only [List.count_nil]; omega)
        simp only [List.nil_append] at hsnl
        rw [hsnl]
        dsimp only
        have htHead : tHead tes = editTok := by
          match tes, hne with
          | .cons kt vt tt, _ => rfl
        rw [htHead, if_pos rfl]
        have hloop := hE.2.2 .nil (d + 1) d f1 ('\n' :: T) (decide (k0 = vdomTok))
          htes (freshAll_nil_acc _) (by omega) (sepSp_newline T)
        rw [htHead] at hloop
        rw [hloop]
        dsimp only
        have happ : dictAppend .nil tes = tes := rfl
        rw [happ, ← hsp, joinSp_splitSp]
        rfl

theorem dictStmts_cons (k : Tok) (v : FgtConfigNode) (t : FgtConfigDict)
    (hN : nodeStmts v) (hT : dictStmts t) : dictStmts (.cons k v t) := by
  refine ⟨?_, ?_, ?_⟩
  · -- object loop
    intro acc d dEnd fuel T hwf hfresh hfuel hsT
    simp only [wfEntries, Bool.and_eq_true, Bool.not_eq_true'] at hwf
    obtain ⟨⟨hcmd, hkt⟩, ht⟩ := hwf
    simp only [freshAll, Bool.and_eq_true, Bool.not_eq_true'] at hfresh
    obtain ⟨hka, hta⟩ := hfresh
    simp only [bodyFuel] at hfuel
    match fuel, hfuel with
    | f + 1, hfuel =>
      rw [show bHead endTok (.cons k v t) = cmdHead v from rfl,
        show bRem d dEnd endTok T (.cons k v t) =
          cmdRem d k (trailText (bodyLines d false t) ++ (ind dEnd ++ (endTok ++ T))) v
          from rfl,
        parseObjectLoop_step f (cmdHead v) _ acc (cmdHead_ne_keywords v).1]
      rw [hN.1 k d f _ hcmd (by omega)]
      dsimp only
      rw [headRead t d dEnd endTok T (cmdPost v) f ht goodTok_endTok hsT
        (blankOk_cmdPost v) (by have := count_cmdPost v; omega)]
      dsimp only
      rw [hT.1 (dictInsert k v acc) d dEnd f T ht (freshAll_insert t acc k v hta hkt)
        (by omega) hsT]
      rw [dictAppend_insert k v acc t hka]
  · -- entry loop
    intro acc d dT fuel T blank vdom term hwf hfresh hfuel hsT hblank hcount hdisj
    simp only [wfEntries, Bool.and_eq_true, Bool.not_eq_true'] at hwf
    obtain ⟨⟨hcmd, hkt⟩, ht⟩ := hwf
    simp only [freshAll, Bool.and_eq_true, Bool.not_eq_true'] at hfresh
    obtain ⟨hka, hta⟩ := hfresh
    simp only [bodyFuel] at hfuel
    have hterm : goodTok term = true := by
      rcases hdisj with rfl | ⟨_, rfl⟩
      · exact goodTok_nextKwTok
      · exact goodTok_endTok
    match fuel, hfuel with
    | f + 1, hfuel =>
      rw [parseEntryLoop_unfold]
      rw [headRead (.cons k v t) d dT term T blank f
        (by simp [wfEntries, hcmd, hkt, ht]) hterm hsT hblank (by omega)]
      dsimp only
      have hcond : (bHead term (.cons k v t) = nextKwTok ||
          vdom && bHead term (.cons k v t) = endTok) = false := by
        rw [show bHead term (.cons k v t) = cmdHead v from rfl]
        simp [decide_eq_false (cmdHead_ne_keywords v).2.2,
          decide_eq_false (cmdHead_ne_keywords v).1]
      simp only [hcond, Bool.false_eq_true, if_false]
      rw [show bRem d dT term T (.cons k v t) =
        cmdRem d k (trailText (bodyLines d false t) ++ (ind dT ++ (term ++ T))) v
        from rfl]
      rw [show bHead term (.cons k v t) = cmdHead v from rfl]
      rw [hN.1 k d f _ hcmd (by omega)]
      dsimp only
      have hrec := hT.2.1 (dictInsert k v acc) d dT f T (cmdPost v) vdom term ht
        (freshAll_insert t acc k v hta hkt) (by omega) hsT (blankOk_cmdPost v)
        (count_cmdPost v) hdisj
      rw [hrec]
      rw [dictAppend_insert k v acc t hka]
  · -- table loop
    intro acc d dEnd fuel T vdom hwf hfresh hfuel hsT
    match v with
    | .set ps => simp [wfTable] at hwf
    | .unset => simp [wfTable] at hwf
    | .table tes2 => simp [wfTable] at hwf
    | .object es2 =>
      have hwf' := hwf
      simp only [wfTable, Bool.and_eq_true, Bool.not_eq_true'] at hwf'
      obtain ⟨⟨⟨hk, hes2⟩, hkt⟩, ht⟩ := hwf'
      simp only [freshAll, Bool.and_eq_true, Bool.not_eq_true'] at hfresh
      obtain ⟨hka, hta⟩ := hfresh
      simp only [tableFuel] at hfuel
      match fuel, hfuel with
      | f + 1, hfuel =>
        rw [show tHead (.cons k (.object es2) t) = editTok from rfl,
          parseTableLoop_step f vdom editTok _ acc (by decide)]
        match f, hfuel with
        | f2 + 1, hfuel =>
          rw [parseTableEntry_unfold]
          have hline := nextParameters_line [k] f2 [' ']
            ('\n' :: (trailText (bodyLines (d + 1) false es2) ++
              (ind d ++ (nextKwTok ++ ('\n' :: (trailText (bodyLines d true t) ++
                (ind dEnd ++ (endTok ++ T))))))))
            (trailText (bodyLines (d + 1) false es2) ++
              (ind d ++ (nextKwTok ++ ('\n' :: (trailText (bodyLines d true t) ++
                (ind dEnd ++ (endTok ++ T)))))))
            (by simp; omega) rfl
            (by
              intro x hx
              simp only [List.mem_singleton] at hx
              subst hx
              exact hk)
            (Or.inl rfl)
          rw [show tRem d dEnd T (.cons k (.object es2) t) =
              [' '] ++ (joinSp [k] ++
                '\n' :: (trailText (bodyLines (d + 1) false es2) ++
                  (ind d ++ (nextKwTok ++ ('\n' :: (trailText (bodyLines d true t) ++
                    (ind dEnd ++ (endTok ++ T)))))))) from by
            simp [tRem, nodeEntries, joinSp_single]]
          rw [hline]
          dsimp only
          have hent := hN.2.2.1 .nil (d + 1) d f2
            ('\n' :: (trailText (bodyLines d true t) ++ (ind dEnd ++ (endTok ++ T))))
            [] vdom nextKwTok hes2 (freshAll_nil_acc _) (by omega)
            (sepSp_newline _) rfl (by simp) (Or.inl rfl)
          simp only [List.nil_append] at hent
          rw [hent]
          dsimp only
          simp only [show (vdom && decide (nextKwTok = endTok)) = false from by
            cases vdom <;> decide, Bool.false_eq_true, if_false]
          rw [show dictAppend .nil es2 = es2 from rfl]
          rw [show ('\n' :: (trailText (bodyLines d true t) ++ (ind dEnd ++ (endTok ++ T)))) =
            ['\n'] ++ (trailText (bodyLines d true t) ++ (ind dEnd ++ (endTok ++ T))) from rfl]
          rw [tHeadRead t d dEnd T ['\n'] (f2 + 1) ht hsT (by decide) (by simp; omega)]
          dsimp only
          have hrec := hT.2.2 (dictInsert k (.object es2) acc) d dEnd (f2 + 1) T vdom ht
            (freshAll_insert t acc k (.object es2) hta hkt) (by omega) hsT
          rw [hrec]
          rw [dictAppend_insert k (.object es2) acc t hka]

theorem nodeStmts_all : ∀ v, nodeStmts v :=
  nodeMutualInd nodeStmts_set nodeStmts_unset nodeStmts_object
    nodeStmts_table dictStmts_nil dictStmts_cons

theorem dictStmts_all : ∀ es, dictStmts es :=
  dictMutualInd nodeStmts_set nodeStmts_unset nodeStmts_object
    nodeStmts_table dictStmts_nil dictStmts_cons

/-- _parse_config on a rendered object section: space, the key words joined
by single spaces, a newline, the rendered children, the indented end line,
then arbitrary following text. -/
theorem parseConfig_obj (ws : List Tok) (es : FgtConfigDict) (dB dE : Nat)
    (E : List Char) (fuel : Nat) (hne : ws ≠ []) (hws : ∀ t ∈ ws, goodTok t = true)
    (hes : wfEntries es = true) (hE : sepSp E = true)
    (hfuel : ws.length + bodyFuel es + 4 ≤ fuel) :
    parseConfig fuel ⟨[' '] ++ (joinSp ws ++
        ('\n' :: (trailText (bodyLines dB false es) ++ (ind dE ++ (endTok ++ E))))), none⟩ =
      .ok ((joinSp ws, .object es), ⟨E, none⟩) := by
  match fuel, hfuel with
  | f + 1, hfuel =>
    rw [parseConfig_unfold]
    have hline := nextParameters_line ws f [' ']
      ('\n' :: (trailText (bodyLines dB false es) ++ (ind dE ++ (endTok ++ E))))
      (trailText (bodyLines dB false es) ++ (ind dE ++ (endTok ++ E)))
      (by omega) rfl hws (Or.inl rfl)
    rw [hline]
    dsimp only
    match ws, hne with
    | w0 :: ws', _ =>
      dsimp only
      have hsnl := headRead es dB dE endTok E [] f hes goodTok_endTok hE rfl
        (by simp only [List.count_nil]; omega)
      simp only [List.nil_append] at hsnl
      rw [hsnl]
      dsimp only
      rw [if_neg (bHead_ne_edit es endTok (by decide))]
      have hloop := (dictStmts_all es).1 .nil dB dE f E hes (freshAll_nil_acc es)
        (by simp at hfuel ⊢; omega) hE
      rw [hloop]
      dsimp only
      rw [show dictAppend .nil es = es from rfl]

/-- _parse_config on a rendered non-empty table section. -/
theorem parseConfig_tab (ws : List Tok) (tes : FgtConfigDict) (dB dE : Nat)
    (E : List Char) (fuel : Nat) (hne : ws ≠ []) (hws : ∀ t ∈ ws, goodTok t = true)
    (htne : tes ≠ .nil) (htes : wfTable tes = true) (hE : sepSp E = true)
    (hfuel : ws.length + tableFuel tes + 4 ≤ fuel) :
    parseConfig fuel ⟨[' '] ++ (joinSp ws ++
        ('\n' :: (trailText (bodyLines dB true tes) ++ (ind dE ++ (endTok ++ E))))), none⟩ =
      .ok ((joinSp ws, .table tes), ⟨E, none⟩) := by
  match fuel, hfuel with
  | f + 1, hfuel =>
    rw [parseConfig_unfold]
    have hline := nextParameters_line ws f [' ']
      ('\n' :: (trailText (bodyLines dB true tes) ++ (ind dE ++ (endTok ++ E))))
      (trailText (bodyLines dB true tes) ++ (ind dE ++ (endTok ++ E)))
      (by omega) rfl hws (Or.inl rfl)
    rw [hline]
    dsimp only
    match ws, hne with
    | w0 :: ws', _ =>
      dsimp only
      have hsnl := tHeadRead tes dB dE E [] f htes hE rfl
        (by simp only [List.count_nil]; omega)
      simp only [List.nil_append] at hsnl
      rw [hsnl]
      dsimp only
      have htHead : tHead tes = editTok := by
        match tes, htne with
        | .cons kt vt tt, _ => rfl
      rw [htHead, if_pos rfl]
      have hloop := (dictStmts_all tes).2.2 .nil dB dE f E (decide (w0 = vdomTok))
        htes (freshAll_nil_acc _) (by simp at hfuel ⊢; omega) hE
      rw [htHead] at hloop
      rw [hloop]
      dsimp only
      rw [show dictAppend .nil tes = tes from rfl]

theorem ind_zero : ind 0 = [] := rfl

theorem joinLines_nil : joinLines [] = [] := rfl

theorem joinLines_single (l : Tok) : joinLines [l] = l := rfl

theorem joinLines_cons2 (l m : Tok) (ls : List Tok) :
    joinLines (l :: m :: ls) = l ++ '\n' :: joinLines (m :: ls) := rfl

theorem joinLines_cons_ne (l : Tok) (ls : List Tok) (h : ls ≠ []) :
    joinLines (l :: ls) = l ++ '\n' :: joinLines ls := by
  match ls, h with
  | m :: ls', _ => rfl

theorem entryLines_ne_nil (d : Nat) (c : Bool) (k : Tok) (v : FgtConfigNode) :
    entryLines d c k v ≠ [] := by
  cases v <;> simp [entryLines]

theorem bodyLines_cons_ne_nil (d : Nat) (c : Bool) (k : Tok) (v : FgtConfigNode)
    (t : FgtConfigDict) : bodyLines d c (.cons k v t) ≠ [] := by
  rw [bodyLines]
  simp [entryLines_ne_nil]

/-- The text that follows a closing top-level end line: nothing at the end
of the stream, or the newline separator and the remaining sections. -/
def secSep : FgtConfigDict → List Char
  | .nil => []
  | .cons k v t => '\n' :: joinLines (bodyLines 0 false (.cons k v t))

/-- The blank prefix of that text. -/
def secBlank : FgtConfigDict → List Char
  | .nil => []
  | .cons _ _ _ => ['\n']

theorem secSep_eq (t : FgtConfigDict) :
    secSep t = secBlank t ++ joinLines (bodyLines 0 false t) := by
  cases t <;> rfl

theorem secSep_sepSp (t : FgtConfigDict) : sepSp (secSep t) = true := by
  cases t
  · rfl
  · simp [secSep, sepSp, pyIsSpace]

theorem secBlank_blankOk (t : FgtConfigDict) : blankOk (secBlank t) = true := by
  cases t <;> rfl

theorem secBlank_count (t : FgtConfigDict) : (secBlank t).count '\n' ≤ 1 := by
  cases t with
  | nil =>
    show ([] : List Char).count '\n' ≤ 1
    decide
  | cons k v r =>
    show (['\n'] : List Char).count '\n' ≤ 1
    decide

/-- The rendered text of a top-level object section followed by the
remaining sections, decomposed at the first token. -/
theorem rootText_obj (k : Tok) (es : FgtConfigDict) (t : FgtConfigDict) :
    joinLines (bodyLines 0 false (.cons k (.object es) t)) =
      configTok ++ (' ' :: (k ++ ('\n' :: (trailText (bodyLines 1 false es) ++
        (ind 0 ++ (endTok ++ secSep t)))))) := by
  rw [bodyLines]
  rw [show entryLines 0 false k (.object es) =
      (configTok ++ ' ' :: k) :: (bodyLines 1 false es ++ [endTok]) from by
    simp only [entryLines, ind_zero, List.nil_append, if_false, Bool.false_eq_true]
    exact rfl]
  cases t with
  | nil =>
    rw [show bodyLines 0 false .nil = [] from rfl, List.append_nil]
    rw [joinLines_cons_ne _ _ (by simp)]
    rw [joinLines_append (bodyLines 1 false es) endTok []]
    simp [secSep, joinLines_single, ind_zero]
  | cons k2 v2 t2 =>
    rw [show ((configTok ++ ' ' :: k) :: (bodyLines 1 false es ++ [endTok])) ++
        bodyLines 0 false (.cons k2 v2 t2) =
        (configTok ++ ' ' :: k) :: ((bodyLines 1 false es ++ [endTok]) ++
          bodyLines 0 false (.cons k2 v2 t2)) from rfl]
    rw [joinLines_cons_ne _ _ (by simp [bodyLines_cons_ne_nil])]
    match hbt : bodyLines 0 false (.cons k2 v2 t2), bodyLines_cons_ne_nil 0 false k2 v2 t2 with
    | m :: ms, _ =>
      have h2 : joinLines ((bodyLines 1 false es ++ [endTok]) ++ (m :: ms)) =
          trailText (bodyLines 1 false es) ++ (endTok ++ '\n' :: joinLines (m :: ms)) := by
        rw [List.append_assoc, List.singleton_append,
          joinLines_append (bodyLines 1 false es) endTok (m :: ms),
          joinLines_cons_ne endTok (m :: ms) (by simp)]
      rw [h2]
      simp [secSep, hbt, ind_zero]

/-- The rendered text of a top-level table section followed by the
remaining sections, decomposed at the first token. -/
theorem rootText_tab (k : Tok) (tes : FgtConfigDict) (t : FgtConfigDict) :
    joinLines (bodyLines 0 false (.cons k (.table tes) t)) =
      configTok ++ (' ' :: (k ++ ('\n' :: (trailText (bodyLines 1 true tes) ++
        (ind 0 ++ (endTok ++ secSep t)))))) := by
  rw [bodyLines]
  rw [show entryLines 0 false k (.table tes) =
      (configTok ++ ' ' :: k) :: (bodyLines 1 true tes ++ [endTok]) from by
    simp only [entryLines, ind_zero, List.nil_append, if_false, Bool.false_eq_true]
    exact rfl]
  cases t with
  | nil =>
    rw [show bodyLines 0 false .nil = [] from rfl, List.append_nil]
    rw [joinLines_cons_ne _ _ (by simp)]
    rw [joinLines_append (bodyLines 1 true tes) endTok []]
    simp [secSep, joinLines_single, ind_zero]
  | cons k2 v2 t2 =>
    rw [show ((configTok ++ ' ' :: k) :: (bodyLines 1 true tes ++ [endTok])) ++
        bodyLines 0 false (.cons k2 v2 t2) =
        (configTok ++ ' ' :: k) :: ((bodyLines 1 true tes ++ [endTok]) ++
          bodyLines 0 false (.cons k2 v2 t2)) from rfl]
    rw [joinLines_cons_ne _ _ (by simp [bodyLines_cons_ne_nil])]
    match hbt : bodyLines 0 false (.cons k2 v2 t2), bodyLines_cons_ne_nil 0 false k2 v2 t2 with
    | m :: ms, _ =>
      have h2 : joinLines ((bodyLines 1 true tes ++ [endTok]) ++ (m :: ms)) =
          trailText (bodyLines 1 true tes) ++ (endTok ++ '\n' :: joinLines (m :: ms)) := by
        rw [List.append_assoc, List.singleton_append,
          joinLines_append (bodyLines 1 true tes) endTok (m :: ms),
          joinLines_cons_ne endTok (m :: ms) (by simp)]
      rw [h2]
      simp [secSep, hbt, ind_zero]

theorem parseTop_eos (f : Nat) (st : LexState) (g : FgtConfigDict)
    (vd : List (Tok × FgtConfigDict)) : parseTop (f + 1) [] st g vd = .ok (g, vd) := rfl

theorem parseTop_config (f : Nat) (st : LexState) (g : FgtConfigDict)
    (vd : List (Tok × FgtConfigDict)) :
    parseTop (f + 1) configTok st g vd =
      (match parseConfig f st with
       | .error e => .error e
       | .ok ((k, v), st1) =>
         if k = vdomTok then
           match vdomChildren (nodeEntries v) vd with
           | .error e => .error e
           | .ok vd1 =>
             match nextSnlToken f false st1 with
             | .error e => .error e
             | .ok (token2, st2) => parseTop f token2 st2 g vd1
         else
           match nextSnlToken f false st1 with
           | .error e => .error e
           | .ok (token2, st2) => parseTop f token2 st2 (dictInsert k v g) vd) := rfl

/-- A fuel amount sufficient for the top statement loop over rendered
sections. -/
def topFuel : FgtConfigDict → Nat
  | .nil => 4
  | .cons k v t => entFuel k v + topFuel t + 8

/-- The top-level statement loop of parse on the rendered sections of a
well-formed root dictionary: reading the next token yields the head of the
first section (or the end of the stream), and the loop returns the
accumulated top-level object with the tenant mapping untouched. -/
theorem parseTop_render : ∀ (root g : FgtConfigDict) (vd : List (Tok × FgtConfigDict))
    (blank : List Char) (fuel1 : Nat),
    wfEntries root = true → validRoot root = true → freshAll root g = true →
    dictHasKey vdomTok root = false → blankOk blank = true →
    blank.count '\n' + 1 ≤ fuel1 →
    ∃ token st1,
      nextSnlToken fuel1 false ⟨blank ++ joinLines (bodyLines 0 false root), none⟩ =
        .ok (token, st1) ∧
      isCommentTok token = false ∧
      ∀ fuel2, topFuel root ≤ fuel2 →
        parseTop fuel2 token st1 g vd = .ok (dictAppend g root, vd)
  | .nil, g, vd, blank, fuel1, hwf, hval, hfresh, hvd, hblank, hcount => by
    refine ⟨[], ⟨[], none⟩, ?_, rfl, ?_⟩
    · rw [show joinLines (bodyLines 0 false .nil) = [] from rfl, List.append_nil]
      exact (nextSnl_eos blank fuel1 hcount hblank).1
    · intro fuel2 hfuel2
      match fuel2, hfuel2 with
      | f + 1, _ => rw [parseTop_eos, dictAppend_nil]
  | .cons k v t, g, vd, blank, fuel1, hwf, hval, hfresh, hvd, hblank, hcount => by
    simp only [wfEntries, Bool.and_eq_true, Bool.not_eq_true'] at hwf
    obtain ⟨⟨hcmd, hkt⟩, ht⟩ := hwf
    simp only [freshAll, Bool.and_eq_true, Bool.not_eq_true'] at hfresh
    obtain ⟨hkg, htg⟩ := hfresh
    simp only [dictHasKey, Bool.or_eq_false_iff, decide_eq_false_iff_not] at hvd
    obtain ⟨hkvd, htvd⟩ := hvd
    match v, hval with
    | .object es, hval =>
      simp only [validRoot, Bool.and_eq_true] at hval
      simp only [wfCmd, Bool.and_eq_true] at hcmd
      obtain ⟨hkey, hes⟩ := hcmd
      refine ⟨configTok, ⟨' ' :: (k ++ ('\n' :: (trailText (bodyLines 1 false es) ++
        (ind 0 ++ (endTok ++ secSep t))))), none⟩, ?_, by decide, ?_⟩
      · rw [rootText_obj k es t]
        rw [show configTok ++ (' ' :: (k ++ ('\n' :: (trailText (bodyLines 1 false es) ++
            (ind 0 ++ (endTok ++ secSep t)))))) =
          configTok ++ (' ' :: (k ++ ('\n' :: (trailText (bodyLines 1 false es) ++
            (ind 0 ++ (endTok ++ secSep t)))))) from rfl]
        exact nextSnl_good blank fuel1 false configTok _ hcount hblank
          goodTok_configTok (sepSp_space _)
      · intro fuel2 hfuel2
        simp only [topFuel, entFuel] at hfuel2
        match fuel2, hfuel2 with
        | f + 1, hfuel2 =>
          rw [parseTop_config]
          have hsec := parseConfig_obj (splitSp k) es 1 0 (secSep t) f
            (splitSp_ne_nil k) (wfKeyWords_goods k hkey) hes (secSep_sepSp t)
            (by have := splitSp_short k; omega)
          rw [joinSp_splitSp] at hsec
          rw [show ([' '] ++ (k ++ ('\n' :: (trailText (bodyLines 1 false es) ++
              (ind 0 ++ (endTok ++ secSep t)))))) =
            (' ' :: (k ++ ('\n' :: (trailText (bodyLines 1 false es) ++
              (ind 0 ++ (endTok ++ secSep t)))))) from rfl] at hsec
          rw [hsec]
          dsimp only
          rw [if_neg hkvd]
          obtain ⟨token2, st2, hsnl2, hcomm2, hrun2⟩ := parseTop_render t
            (dictInsert k (.object es) g) vd (secBlank t) f ht hval.2
            (freshAll_insert t g k (.object es) htg hkt) htvd
            (secBlank_blankOk t) (by have := secBlank_count t; omega)
          rw [show (⟨secSep t, none⟩ : LexState) =
            ⟨secBlank t ++ joinLines (bodyLines 0 false t), none⟩ from by
              rw [secSep_eq]]
          rw [hsnl2]
          dsimp only
          rw [hrun2 f (by omega)]
          rw [dictAppend_insert k (.object es) g t hkg]
    | .table tes, hval =>
      simp only [validRoot, Bool.and_eq_true] at hval
      simp only [wfCmd, Bool.and_eq_true, Bool.not_eq_true', decide_eq_false_iff_not]
        at hcmd
      obtain ⟨⟨hkey, htne⟩, htes⟩ := hcmd
      refine ⟨configTok, ⟨' ' :: (k ++ ('\n' :: (trailText (bodyLines 1 true tes) ++
        (ind 0 ++ (endTok ++ secSep t))))), none⟩, ?_, by decide, ?_⟩
      · rw [rootText_tab k tes t]
        exact nextSnl_good blank fuel1 false configTok _ hcount hblank
          goodTok_configTok (sepSp_space _)
      · intro fuel2 hfuel2
        simp only [topFuel, entFuel] at hfuel2
        match fuel2, hfuel2 with
        | f + 1, hfuel2 =>
          rw [parseTop_config]
          have hsec := parseConfig_tab (splitSp k) tes 1 0 (secSep t) f
            (splitSp_ne_nil k) (wfKeyWords_goods k hkey) htne htes (secSep_sepSp t)
            (by have := splitSp_short k; omega)
          rw [joinSp_splitSp] at hsec
          rw [show ([' '] ++ (k ++ ('\n' :: (trailText (bodyLines 1 true tes) ++
              (ind 0 ++ (endTok ++ secSep t)))))) =
            (' ' :: (k ++ ('\n' :: (trailText (bodyLines 1 true tes) ++
              (ind 0 ++ (endTok ++ secSep t)))))) from rfl] at hsec
          rw [hsec]
          dsimp only
          rw [if_neg hkvd]
          obtain ⟨token2, st2, hsnl2, hcomm2, hrun2⟩ := parseTop_render t
            (dictInsert k (.table tes) g) vd (secBlank t) f ht hval.2
            (freshAll_insert t g k (.table tes) htg hkt) htvd
            (secBlank_blankOk t) (by have := secBlank_count t; omega)
          rw [show (⟨secSep t, none⟩ : LexState) =
            ⟨secBlank t ++ joinLines (bodyLines 0 false t), none⟩ from by
              rw [secSep_eq]]
          rw [hsnl2]
          dsimp only
          rw [hrun2 f (by omega)]
          rw [dictAppend_insert k (.table tes) g t hkg]
    | .set ps, hval => simp [validRoot] at hval
    | .unset, hval => simp [validRoot] at hval

theorem goodTok_vdomTok : goodTok vdomTok = true := by decide

theorem goodTok_globalTok : goodTok globalTok = true := by decide

/-- Python membership test on the tenant mapping. -/
def vdHasKey (k : Tok) : List (Tok × FgtConfigDict) → Bool
  | [] => false
  | (k', _) :: t => k' = k || vdHasKey k t

/-- Well-formedness of a tenant list as rendered and reparsed: good
distinct names and well-formed bodies. -/
def wfVdoms : List (Tok × FgtConfigDict) → Bool
  | [] => true
  | (k, es) :: t => goodTok k && !(vdHasKey k t) && wfEntries es && wfVdoms t

/-- All names of the first list are absent from the second. -/
def allFreshV : List (Tok × FgtConfigDict) → List (Tok × FgtConfigDict) → Bool
  | [], _ => true
  | (k, _) :: t, done => !(vdHasKey k done) && allFreshV t done

/-- The children of the synthetic declare-only vdom table: each tenant name
bound to an empty object. -/
def declDict : List (Tok × FgtConfigDict) → FgtConfigDict
  | [] => .nil
  | (k, _) :: t => .cons k (.object .nil) (declDict t)

theorem vdHasKey_append (x : Tok) (a b : List (Tok × FgtConfigDict)) :
    vdHasKey x (a ++ b) = (vdHasKey x a || vdHasKey x b) := by
  induction a with
  | nil => rfl
  | cons h t ih =>
    match h with
    | (k', v') => simp [vdHasKey, ih, Bool.or_assoc]

theorem vdInsert_fresh (k : Tok) (v : FgtConfigDict)
    (l : List (Tok × FgtConfigDict)) (h : vdHasKey k l = false) :
    vdInsert k v l = l ++ [(k, v)] := by
  induction l with
  | nil => rfl
  | cons hd t ih =>
    match hd with
    | (k', v') =>
      simp only [vdHasKey, Bool.or_eq_false_iff, decide_eq_false_iff_not] at h
      simp only [vdInsert, if_neg h.1, ih h.2, List.cons_append]

theorem vdInsert_mid (k : Tok) (v x : FgtConfigDict)
    (done r : List (Tok × FgtConfigDict)) (h : vdHasKey k done = false) :
    vdInsert k v (done ++ (k, x) :: r) = done ++ (k, v) :: r := by
  induction done with
  | nil => simp [vdInsert]
  | cons hd t ih =>
    match hd with
    | (k', v') =>
      simp only [vdHasKey, Bool.or_eq_false_iff, decide_eq_false_iff_not] at h
      simp only [List.cons_append, vdInsert, if_neg h.1]
      simp only [List.append_eq]
      rw [ih h.2]

theorem allFreshV_snoc (t done : List (Tok × FgtConfigDict)) (k : Tok)
    (es : FgtConfigDict) (h1 : allFreshV t done = true) (h2 : vdHasKey k t = false) :
    allFreshV t (done ++ [(k, es)]) = true := by
  induction t with
  | nil => rfl
  | cons hd r ih =>
    match hd with
    | (k', v') =>
      simp only [allFreshV, Bool.and_eq_true, Bool.not_eq_true'] at h1 ⊢
      simp only [vdHasKey, Bool.or_eq_false_iff, decide_eq_false_iff_not] at h2
      refine ⟨?_, ih h1.2 h2.2⟩
      rw [vdHasKey_append]
      simp only [h1.1, vdHasKey, Bool.or_false, Bool.false_or]
      simp only [decide_eq_false_iff_not]
      exact fun e => h2.1 e.symm

theorem declDict_hasKey (k : Tok) (vd : List (Tok × FgtConfigDict)) :
    dictHasKey k (declDict vd) = vdHasKey k vd := by
  induction vd with
  | nil => rfl
  | cons hd t ih =>
    match hd with
    | (k', v') => simp [declDict, dictHasKey, vdHasKey, ih]

theorem declDict_wfTable (vd : List (Tok × FgtConfigDict)) (h : wfVdoms vd = true) :
    wfTable (declDict vd) = true := by
  induction vd with
  | nil => rfl
  | cons hd t ih =>
    match hd with
    | (k', v') =>
      simp only [wfVdoms, Bool.and_eq_true, Bool.not_eq_true'] at h
      simp only [declDict, wfTable, Bool.and_eq_true, Bool.not_eq_true']
      exact ⟨⟨⟨h.1.1.1, rfl⟩, by rw [declDict_hasKey]; exact h.1.1.2⟩, ih h.2⟩

theorem vdomChildren_single (k : Tok) (es : FgtConfigDict)
    (acc : List (Tok × FgtConfigDict)) :
    vdomChildren (.cons k (.object es) .nil) acc = .ok (vdInsert k es acc) := rfl

theorem vdomChildren_decl : ∀ (todo done : List (Tok × FgtConfigDict)),
    wfVdoms todo = true → allFreshV todo done = true →
    vdomChildren (declDict todo) done =
      .ok (done ++ todo.map (fun kv => (kv.1, FgtConfigDict.nil)))
  | [], done, _, _ => by simp [declDict, vdomChildren]
  | (k, es) :: rest, done, hwf, hfresh => by
    simp only [wfVdoms, Bool.and_eq_true, Bool.not_eq_true'] at hwf
    simp only [allFreshV, Bool.and_eq_true, Bool.not_eq_true'] at hfresh
    rw [show declDict ((k, es) :: rest) = .cons k (.object .nil) (declDict rest) from rfl]
    rw [show vdomChildren (.cons k (.object .nil) (declDict rest)) done =
      vdomChildren (declDict rest) (vdInsert k .nil done) from rfl]
    rw [vdInsert_fresh k .nil done hfresh.1]
    rw [vdomChildren_decl rest (done ++ [(k, FgtConfigDict.nil)]) hwf.2
      (allFreshV_snoc rest done k FgtConfigDict.nil hfresh.2 hwf.1.1.2)]
    simp

/-- _parse_config on one rendered per-tenant block: the vdom key line, one
edit entry whose commands terminate directly on the enclosing end (no next
keyword), the pushed-back end consumed by the table loop. -/
theorem parseConfig_tenant (k : Tok) (es : FgtConfigDict) (T : List Char) (fuel : Nat)
    (hk : goodTok k = true) (hes : wfEntries es = true) (hT : sepSp T = true)
    (hfuel : k.length + bodyFuel es + 8 ≤ fuel) :
    parseConfig fuel ⟨' ' :: (vdomTok ++ ('\n' :: (editTok ++ (' ' :: (k ++ ('\n' ::
        (trailText (bodyLines 0 false es) ++ (endTok ++ T)))))))), none⟩ =
      .ok ((vdomTok, .table (.cons k (.object es) .nil)), ⟨T, none⟩) := by
  match fuel, hfuel with
  | f + 1, hfuel =>
    rw [parseConfig_unfold]
    have hline := nextParameters_line [vdomTok] f [' ']
      ('\n' :: (editTok ++ (' ' :: (k ++ ('\n' ::
        (trailText (bodyLines 0 false es) ++ (endTok ++ T)))))))
      (editTok ++ (' ' :: (k ++ ('\n' ::
        (trailText (bodyLines 0 false es) ++ (endTok ++ T))))))
      (by simp; omega) rfl
      (by intro x hx; simp only [List.mem_singleton] at hx; subst hx
          exact goodTok_vdomTok)
      (Or.inl rfl)
    rw [show (' ' :: (vdomTok ++ ('\n' :: (editTok ++ (' ' :: (k ++ ('\n' ::
        (trailText (bodyLines 0 false es) ++ (endTok ++ T))))))))) =
      [' '] ++ (joinSp [vdomTok] ++ ('\n' :: (editTok ++ (' ' :: (k ++ ('\n' ::
        (trailText (bodyLines 0 false es) ++ (endTok ++ T)))))))) from by
      simp [joinSp_single]]
    rw [hline]
    dsimp only
    have hsnl := nextSnl_good [] f true editTok
      (' ' :: (k ++ ('\n' :: (trailText (bodyLines 0 false es) ++ (endTok ++ T)))))
      (by simp; omega) rfl goodTok_editTok (sepSp_space _)
    simp only [List.nil_append] at hsnl
    rw [hsnl]
    dsimp only
    rw [if_pos rfl]
    rw [show (decide (vdomTok = vdomTok)) = true from by decide]
    match f, hfuel with
    | f1 + 1, hfuel =>
      rw [parseTableLoop_step f1 true editTok _ .nil (by decide)]
      match f1, hfuel with
      | f2 + 1, hfuel =>
        rw [parseTableEntry_unfold]
        have hline2 := nextParameters_line [k] f2 [' ']
          ('\n' :: (trailText (bodyLines 0 false es) ++ (endTok ++ T)))
          (trailText (bodyLines 0 false es) ++ (endTok ++ T))
          (by simp; omega) rfl
          (by intro x hx; simp only [List.mem_singleton] at hx; subst hx; exact hk)
          (Or.inl rfl)
        rw [show (' ' :: (k ++ ('\n' :: (trailText (bodyLines 0 false es) ++
            (endTok ++ T))))) =
          [' '] ++ (joinSp [k] ++ ('\n' :: (trailText (bodyLines 0 false es) ++
            (endTok ++ T)))) from by
          simp [joinSp_single]]
        rw [hline2]
        dsimp only
        have hent := (dictStmts_all es).2.1 .nil 0 0 f2 T [] true endTok hes
          (freshAll_nil_acc es) (by omega) hT rfl (by decide)
          (Or.inr ⟨rfl, rfl⟩)
        simp only [ind_zero, List.nil_append] at hent
        rw [hent]
        dsimp only
        rw [show (true && decide (endTok = endTok)) = true from by decide]
        rw [show dictAppend .nil es = es from rfl]
        rw [if_pos rfl]
        dsimp only
        rw [nextSnl_pushed (f2 + 1) true T endTok (by omega) (by decide)]
        dsimp only
        match f2, hfuel with
        | f3 + 1, _ =>
          rw [parseTableLoop_end]
          dsimp only
          rw [show dictInsert k (.object es) .nil = .cons k (.object es) .nil from rfl,
            joinSp_single]

/-- The rendered text of the per-tenant blocks emitted at the end of
make_config, from the first config token on. -/
def tenantText : List (Tok × FgtConfigDict) → List Char
  | [] => []
  | (k, es) :: rest =>
    configTok ++ (' ' :: (vdomTok ++ ('\n' :: (editTok ++ (' ' :: (k ++ ('\n' ::
      (trailText (bodyLines 0 false es) ++ (endTok ++ ('\n' ::
        (match rest with
         | [] => []
         | _ :: _ => '\n' :: tenantText rest)))))))))))

/-- The text between a tenant block's end line and the following block: the
blank line emitted after each block, then the next block if any. -/
def tenantSep : List (Tok × FgtConfigDict) → List Char
  | [] => []
  | kv :: rest => '\n' :: tenantText (kv :: rest)

theorem tenantText_cons (k : Tok) (es : FgtConfigDict)
    (rest : List (Tok × FgtConfigDict)) :
    tenantText ((k, es) :: rest) =
      configTok ++ (' ' :: (vdomTok ++ ('\n' :: (editTok ++ (' ' :: (k ++ ('\n' ::
        (trailText (bodyLines 0 false es) ++
          (endTok ++ ('\n' :: tenantSep rest)))))))))) := by
  cases rest <;> rfl

/-- A fuel amount sufficient for the top loop over the rendered tenant
blocks. -/
def tenFuel : List (Tok × FgtConfigDict) → Nat
  | [] => 4
  | (k, es) :: r => k.length + bodyFuel es + tenFuel r + 12

/-- The top statement loop over the rendered tenant blocks: each block is a
vdom statement holding one fully populated tenant entry, overwriting the
name-only entry the declare block stored for that tenant; the default tree
is left untouched. -/
theorem parseTop_tenants : ∀ (todo done : List (Tok × FgtConfigDict))
    (g : FgtConfigDict) (fuel1 : Nat),
    wfVdoms todo = true → allFreshV todo done = true → 3 ≤ fuel1 →
    ∃ token st1,
      nextSnlToken fuel1 false ⟨'\n' :: tenantSep todo, none⟩ = .ok (token, st1) ∧
      ∀ fuel2, tenFuel todo ≤ fuel2 →
        parseTop fuel2 token st1 g
            (done ++ todo.map (fun kv => (kv.1, FgtConfigDict.nil))) =
          .ok (g, done ++ todo)
  | [], done, g, fuel1, hwf, hfresh, hfuel1 => by
    refine ⟨[], ⟨[], none⟩, ?_, ?_⟩
    · rw [show ('\n' :: tenantSep []) = (['\n'] : List Char) from rfl]
      exact (nextSnl_eos ['\n'] fuel1 (by simp; omega) (by decide)).1
    · intro fuel2 hfuel2
      match fuel2, hfuel2 with
      | f + 1, _ =>
        rw [parseTop_eos]
        simp
  | (k, es) :: rest, done, g, fuel1, hwf, hfresh, hfuel1 => by
    simp only [wfVdoms, Bool.and_eq_true, Bool.not_eq_true'] at hwf
    simp only [allFreshV, Bool.and_eq_true, Bool.not_eq_true'] at hfresh
    refine ⟨configTok, ⟨' ' :: (vdomTok ++ ('\n' :: (editTok ++ (' ' :: (k ++ ('\n' ::
      (trailText (bodyLines 0 false es) ++ (endTok ++ ('\n' :: tenantSep rest))))))))),
      none⟩, ?_, ?_⟩
    · rw [show ('\n' :: tenantSep ((k, es) :: rest)) =
        ['\n', '\n'] ++ (configTok ++ (' ' :: (vdomTok ++ ('\n' :: (editTok ++
          (' ' :: (k ++ ('\n' :: (trailText (bodyLines 0 false es) ++
            (endTok ++ ('\n' :: tenantSep rest))))))))))) from by
        rw [tenantSep, tenantText_cons]
        rfl]
      exact nextSnl_good ['\n', '\n'] fuel1 false configTok _ (by simp; omega)
        (by decide) goodTok_configTok (sepSp_space _)
    · intro fuel2 hfuel2
      simp only [tenFuel] at hfuel2
      match fuel2, hfuel2 with
      | f + 1, hfuel2 =>
        rw [parseTop_config]
        rw [parseConfig_tenant k es ('\n' :: tenantSep rest) f hwf.1.1.1 hwf.1.2
          (sepSp_newline _) (by omega)]
        dsimp only
        rw [if_pos rfl]
        rw [show nodeEntries (.table (.cons k (.object es) .nil)) =
          .cons k (.object es) .nil from rfl]
        rw [vdomChildren_single]
        rw [show done ++ ((k, es) :: rest).map (fun kv => (kv.1, FgtConfigDict.nil)) =
          done ++ ((k, FgtConfigDict.nil) :: rest.map (fun kv => (kv.1, FgtConfigDict.nil)))
          from by simp]
        rw [vdInsert_mid k es FgtConfigDict.nil done
          (rest.map (fun kv => (kv.1, FgtConfigDict.nil))) hfresh.1]
        dsimp only
        obtain ⟨token2, st2, hsnl2, hrun2⟩ := parseTop_tenants rest (done ++ [(k, es)])
          g f hwf.2 (allFreshV_snoc rest done k es hfresh.2 hwf.1.1.2) (by omega)
        rw [show done ++ ((k, es) :: rest.map (fun kv => (kv.1, FgtConfigDict.nil))) =
          (done ++ [(k, es)]) ++ rest.map (fun kv => (kv.1, FgtConfigDict.nil)) from by
          simp]
        rw [hsnl2]
        dsimp only
        rw [hrun2 f (by omega)]
        simp

theorem allFreshV_nil_done (todo : List (Tok × FgtConfigDict)) :
    allFreshV todo [] = true := by
  induction todo with
  | nil => rfl
  | cons hd t ih =>
    match hd with
    | (k, v) => simp [allFreshV, vdHasKey, ih]

/-- The declare-only lines of make_config are the rendering of the
synthetic name-only table. -/
theorem declLines (vd : List (Tok × FgtConfigDict)) :
    vd.flatMap (fun kv => ["edit ".toList ++ kv.1, "next".toList]) =
      bodyLines 0 true (declDict vd) := by
  induction vd with
  | nil => rfl
  | cons hd t ih =>
    match hd with
    | (k, es) =>
      rw [List.flatMap_cons, ih]
      rw [show declDict ((k, es) :: t) = .cons k (.object .nil) (declDict t) from rfl]
      rw [bodyLines]
      rw [show entryLines 0 true k (.object .nil) =
        ["edit ".toList ++ k, "next".toList] from by
          simp only [entryLines, ind_zero, List.nil_append, if_pos]
          exact rfl]

/-- The per-tenant lines of make_config joined into text. -/
theorem tenantLines : ∀ (vd : List (Tok × FgtConfigDict)), vd ≠ [] →
    joinLines (vd.flatMap (fun kv =>
      ["config vdom".toList, "edit ".toList ++ kv.1] ++
        sectionLines Unit none () kv.2 ++ ["end".toList, ([] : Tok)])) = tenantText vd
  | [(k, es)], _ => by
    rw [List.flatMap_cons, List.flatMap_nil, List.append_nil]
    rw [show (["config vdom".toList, "edit ".toList ++ k] ++
        sectionLines Unit none () es ++ ["end".toList, ([] : Tok)]) =
      "config vdom".toList :: (("edit ".toList ++ k) ::
        (sectionLines Unit none () es ++ (endTok :: [([] : Tok)]))) from by simp [endTok]]
    rw [joinLines_cons_ne _ _ (by simp), joinLines_cons_ne _ _ (by simp)]
    rw [joinLines_append (sectionLines Unit none () es) endTok [([] : Tok)]]
    rw [joinLines_cons2, joinLines_single]
    rw [sectionLines_eq, tenantText_cons k es []]
    rw [show tenantSep [] = [] from rfl]
    simp
    exact rfl
  | (k, es) :: y :: ys, _ => by
    rw [List.flatMap_cons]
    have hner : (y :: ys).flatMap (fun kv =>
        ["config vdom".toList, "edit ".toList ++ kv.1] ++
          sectionLines Unit none () kv.2 ++ ["end".toList, ([] : Tok)]) ≠ [] := by
      rw [List.flatMap_cons]
      simp
    match hr : (y :: ys).flatMap (fun kv =>
        ["config vdom".toList, "edit ".toList ++ kv.1] ++
          sectionLines Unit none () kv.2 ++ ["end".toList, ([] : Tok)]), hner with
    | r :: rs, _ =>
      rw [show (["config vdom".toList, "edit ".toList ++ k] ++
          sectionLines Unit none () es ++ ["end".toList, ([] : Tok)]) ++ (r :: rs) =
        "config vdom".toList :: (("edit ".toList ++ k) ::
          (sectionLines Unit none () es ++ (endTok :: (([] : Tok) :: (r :: rs)))))
        from by simp [endTok]]
      rw [joinLines_cons_ne _ _ (by simp), joinLines_cons_ne _ _ (by simp)]
      rw [joinLines_append (sectionLines Unit none () es) endTok (([] : Tok) :: r :: rs)]
      rw [joinLines_cons2, joinLines_cons_ne ([] : Tok) (r :: rs) (by simp)]
      have ih := tenantLines (y :: ys) (by simp)
      rw [hr] at ih
      rw [ih]
      rw [sectionLines_eq, tenantText_cons k es (y :: ys)]
      rw [show tenantSep (y :: ys) = '\n' :: tenantText (y :: ys) from rfl]
      simp
      exact rfl

/-- The complete rendered text of a multi-tenant configuration, nested for
the parser. -/
def vdomRender (root : FgtConfigDict) (vd : List (Tok × FgtConfigDict)) : List Char :=
  '\n' :: (configTok ++ (' ' :: (vdomTok ++ ('\n' ::
    (trailText (bodyLines 0 true (declDict vd)) ++ (endTok ++ ('\n' :: ('\n' ::
      (configTok ++ (' ' :: (globalTok ++ ('\n' ::
        (trailText (bodyLines 0 false root) ++ (endTok ++ ('\n' ::
          ('\n' :: tenantText vd))))))))))))))))

theorem makeConfig_vdomRender (cfg : FgtConfig) (hvd : cfg.vdoms ≠ []) :
    joinLines (makeConfig Unit cfg none ()) = vdomRender cfg.root cfg.vdoms := by
  rw [makeConfig, if_pos (by simp [List.length_pos, hvd])]
  match hv : cfg.vdoms, hvd with
  | x :: xs, _ =>
    have hTB := tenantLines (x :: xs) (by simp)
    match hr : (x :: xs).flatMap (fun kv =>
        ["config vdom".toList, "edit ".toList ++ kv.1] ++
          sectionLines Unit none () kv.2 ++ ["end".toList, ([] : Tok)]), hTB with
    | r :: rs, hTB =>
      rw [show ([([] : Tok), "config vdom".toList] ++
          (x :: xs).flatMap (fun kv => ["edit ".toList ++ kv.1, "next".toList]) ++
          ["end".toList, ([] : Tok), "config global".toList] ++
          sectionLines Unit none () cfg.root ++ ["end".toList, ([] : Tok)] ++ (r :: rs)) =
        ([] : Tok) :: ("config vdom".toList ::
          ((x :: xs).flatMap (fun kv => ["edit ".toList ++ kv.1, "next".toList]) ++
            (endTok :: (([] : Tok) :: ("config global".toList ::
              (sectionLines Unit none () cfg.root ++
                (endTok :: (([] : Tok) :: (r :: rs))))))))) from by simp [endTok]]
      rw [joinLines_cons_ne _ _ (by simp), joinLines_cons_ne _ _ (by simp)]
      rw [joinLines_append _ endTok _]
      rw [joinLines_cons2, joinLines_cons2]
      rw [joinLines_cons_ne "config global".toList _ (by simp)]
      rw [joinLines_append (sectionLines Unit none () cfg.root) endTok _]
      rw [joinLines_cons2, joinLines_cons_ne ([] : Tok) (r :: rs) (by simp)]
      rw [hTB]
      rw [declLines, sectionLines_eq]
      rw [vdomRender]
      exact rfl

theorem parseComments_step (f : Nat) (st : LexState) (acc : List Tok) :
    parseComments (f + 1) st acc =
      (match nextSnlToken f false st with
       | .error e => .error e
       | .ok (token, st1) =>
         if token.head? = some '#' then parseComments f st1 (acc ++ [token])
         else .ok (acc, token, st1)) := rfl

/-- parse on the rendered text of a root dictionary with no tenants: the
whole top-level object is the root of the result and the tenant mapping is
empty. -/
theorem parseMain_plain (root : FgtConfigDict) (fuel : Nat)
    (hwf : wfEntries root = true) (hval : validRoot root = true)
    (hnv : dictHasKey vdomTok root = false) (hfuel : topFuel root + 4 ≤ fuel) :
    parseMain fuel (joinLines (bodyLines 0 false root)) = .ok ⟨[], root, []⟩ := by
  match fuel, hfuel with
  | f + 1, hfuel =>
    obtain ⟨token, st1, hsnl, hcomm, hrun⟩ := parseTop_render root .nil [] [] f
      hwf hval (freshAll_nil_acc root) hnv rfl (by simp; omega)
    simp only [List.nil_append] at hsnl
    rw [parseMain, parseComments_step, hsnl]
    dsimp only
    simp only [isCommentTok] at hcomm
    rw [if_neg (by simpa using of_decide_eq_false hcomm)]
    dsimp only
    rw [hrun (f + 1) (by omega)]
    dsimp only
    rw [show dictAppend FgtConfigDict.nil root = root from rfl]
    rw [if_pos (show ([] : List (Tok × FgtConfigDict)).length = 0 from rfl)]
    dsimp only
    rw [if_pos hval]

/-- parse on the rendered text of a multi-tenant configuration: the declare
block stores name-only tenants, each per-tenant block overwrites its entry,
and the root is the subtree stored under the global key. -/
theorem parseMain_vdomR (root : FgtConfigDict)
    (vd : List (Tok × FgtConfigDict)) (fuel : Nat) (hvd : vd ≠ [])
    (hwf : wfEntries root = true) (hval : validRoot root = true)
    (hwfv : wfVdoms vd = true)
    (hfuel : tableFuel (declDict vd) + bodyFuel root + tenFuel vd + 16 ≤ fuel) :
    parseMain fuel (vdomRender root vd) = .ok ⟨[], root, vd⟩ := by
  match fuel, hfuel with
  | f + 1, hfuel =>
    rw [parseMain, parseComments_step]
    rw [show vdomRender root vd = ['\n'] ++ (configTok ++ (' ' :: (vdomTok ++ ('\n' ::
      (trailText (bodyLines 0 true (declDict vd)) ++ (endTok ++ ('\n' :: ('\n' ::
        (configTok ++ (' ' :: (globalTok ++ ('\n' ::
          (trailText (bodyLines 0 false root) ++ (endTok ++ ('\n' ::
            ('\n' :: tenantText vd)))))))))))))))) from rfl]
    rw [nextSnl_good ['\n'] f false configTok _ (by simp; omega) (by decide)
      goodTok_configTok (sepSp_space _)]
    dsimp only
    rw [if_neg (by decide)]
    dsimp only
    match f, hfuel with
    | f1 + 1, hfuel =>
      rw [parseTop_config]
      have hdecl := parseConfig_tab [vdomTok] (declDict vd) 0 0
        ('\n' :: ('\n' :: (configTok ++ (' ' :: (globalTok ++ ('\n' ::
          (trailText (bodyLines 0 false root) ++ (endTok ++ ('\n' ::
            ('\n' :: tenantText vd))))))))))
        (f1 + 1) (by simp) (by intro x hx; simp only [List.mem_singleton] at hx
                               subst hx
                               exact goodTok_vdomTok)
        (by match vd, hvd with
            | z :: zs, _ => simp [declDict])
        (declDict_wfTable vd hwfv) (sepSp_newline _) (by simp; omega)
      rw [joinSp_single] at hdecl
      simp only [ind_zero, List.nil_append, List.singleton_append] at hdecl
      rw [hdecl]
      dsimp only
      rw [if_pos rfl]
      rw [show nodeEntries (.table (declDict vd)) = declDict vd from rfl]
      rw [vdomChildren_decl vd [] hwfv (allFreshV_nil_done vd)]
      dsimp only
      rw [show ('\n' :: ('\n' :: (configTok ++ (' ' :: (globalTok ++ ('\n' ::
        (trailText (bodyLines 0 false root) ++ (endTok ++ ('\n' ::
          ('\n' :: tenantText vd)))))))))) =
        ['\n', '\n'] ++ (configTok ++ (' ' :: (globalTok ++ ('\n' ::
          (trailText (bodyLines 0 false root) ++ (endTok ++ ('\n' ::
            ('\n' :: tenantText vd)))))))) from rfl]
      rw [nextSnl_good ['\n', '\n'] (f1 + 1) false configTok _ (by simp; omega)
        (by decide) goodTok_configTok (sepSp_space _)]
      dsimp only
      rw [parseTop_config]
      have hglob := parseConfig_obj [globalTok] root 0 0
        ('\n' :: ('\n' :: tenantText vd)) f1 (by simp)
        (by intro x hx; simp only [List.mem_singleton] at hx; subst hx
            exact goodTok_globalTok)
        hwf (sepSp_newline _) (by simp; omega)
      rw [joinSp_single] at hglob
      simp only [ind_zero, List.nil_append, List.singleton_append] at hglob
      rw [hglob]
      dsimp only
      rw [if_neg (by decide)]
      obtain ⟨token2, st2, hsnl2, hrun2⟩ := parseTop_tenants vd []
        (dictInsert globalTok (.object root) .nil) f1 hwfv
        (allFreshV_nil_done vd) (by omega)
      rw [show ('\n' :: ('\n' :: tenantText vd)) = ('\n' :: tenantSep vd) from by
        match vd, hvd with
        | z :: zs, _ => rfl]
      rw [hsnl2]
      dsimp only
      simp only [List.nil_append] at hrun2 ⊢
      rw [hrun2 f1 (by omega)]
      dsimp only
      rw [if_neg (by simp [hvd])]
      rw [show dictGet globalTok (dictInsert globalTok (.object root) .nil) =
        some (.object root) from by simp [dictInsert, dictGet]]
      dsimp only
      rw [show rootOfNode (.object root) = .ok root from rfl]
      dsimp only
      rw [if_pos hval]

/-- _parse_table_entry of a vdom table on an entry whose commands run
directly to the enclosing end keyword: the entry is accepted and the end
token is pushed back. -/
theorem parseTableEntry_vdomEnd (k : Tok) (es : FgtConfigDict) (T : List Char)
    (fuel : Nat) (hk : goodTok k = true) (hes : wfEntries es = true)
    (hT : sepSp T = true) (hfuel : k.length + bodyFuel es + 8 ≤ fuel) :
    parseTableEntry fuel true ⟨' ' :: (k ++ ('\n' ::
        (trailText (bodyLines 0 false es) ++ (endTok ++ T)))), none⟩ =
      .ok ((k, .object es), ⟨T, some endTok⟩) := by
  match fuel, hfuel with
  | f + 1, hfuel =>
    rw [parseTableEntry_unfold]
    have hline := nextParameters_line [k] f [' ']
      ('\n' :: (trailText (bodyLines 0 false es) ++ (endTok ++ T)))
      (trailText (bodyLines 0 false es) ++ (endTok ++ T))
      (by simp; omega) rfl
      (by intro x hx; simp only [List.mem_singleton] at hx; subst hx; exact hk)
      (Or.inl rfl)
    rw [show (' ' :: (k ++ ('\n' :: (trailText (bodyLines 0 false es) ++
        (endTok ++ T))))) =
      [' '] ++ (joinSp [k] ++ ('\n' :: (trailText (bodyLines 0 false es) ++
        (endTok ++ T)))) from by
      simp [joinSp_single]]
    rw [hline]
    dsimp only
    have hent := (dictStmts_all es).2.1 .nil 0 0 f T [] true endTok hes
      (freshAll_nil_acc es) (by omega) hT rfl (by decide) (Or.inr ⟨rfl, rfl⟩)
    simp only [ind_zero, List.nil_append] at hent
    rw [hent]
    dsimp only
    rw [show (true && decide (endTok = endTok)) = true from by decide]
    rw [show dictAppend .nil es = es from rfl]
    rw [if_pos rfl]

/-- _parse_config on a per-tenant block in which the edit entry does carry
the next keyword before the enclosing end. -/
theorem parseConfig_tenantNext (k : Tok) (es : FgtConfigDict) (T : List Char)
    (fuel : Nat) (hk : goodTok k = true) (hes : wfEntries es = true)
    (hT : sepSp T = true) (hfuel : k.length + bodyFuel es + 8 ≤ fuel) :
    parseConfig fuel ⟨' ' :: (vdomTok ++ ('\n' :: (editTok ++ (' ' :: (k ++ ('\n' ::
        (trailText (bodyLines 0 false es) ++ (nextKwTok ++ ('\n' ::
          (endTok ++ T)))))))))), none⟩ =
      .ok ((vdomTok, .table (.cons k (.object es) .nil)), ⟨T, none⟩) := by
  match fuel, hfuel with
  | f + 1, hfuel =>
    rw [parseConfig_unfold]
    have hline := nextParameters_line [vdomTok] f [' ']
      ('\n' :: (editTok ++ (' ' :: (k ++ ('\n' ::
        (trailText (bodyLines 0 false es) ++ (nextKwTok ++ ('\n' ::
          (endTok ++ T)))))))))
      (editTok ++ (' ' :: (k ++ ('\n' ::
        (trailText (bodyLines 0 false es) ++ (nextKwTok ++ ('\n' ::
          (endTok ++ T))))))))
      (by simp; omega) rfl
      (by intro x hx; simp only [List.mem_singleton] at hx; subst hx
          exact goodTok_vdomTok)
      (Or.inl rfl)
    rw [show (' ' :: (vdomTok ++ ('\n' :: (editTok ++ (' ' :: (k ++ ('\n' ::
        (trailText (bodyLines 0 false es) ++ (nextKwTok ++ ('\n' ::
          (endTok ++ T))))))))))) =
      [' '] ++ (joinSp [vdomTok] ++ ('\n' :: (editTok ++ (' ' :: (k ++ ('\n' ::
        (trailText (bodyLines 0 false es) ++ (nextKwTok ++ ('\n' ::
          (endTok ++ T)))))))))) from by
      simp [joinSp_single]]
    rw [hline]
    dsimp only
    have hsnl := nextSnl_good [] f true editTok
      (' ' :: (k ++ ('\n' :: (trailText (bodyLines 0 false es) ++
        (nextKwTok ++ ('\n' :: (endTok ++ T)))))))
      (by simp; omega) rfl goodTok_editTok (sepSp_space _)
    simp only [List.nil_append] at hsnl
    rw [hsnl]
    dsimp only
    rw [if_pos rfl]
    rw [show (decide (vdomTok = vdomTok)) = true from by decide]
    match f, hfuel with
    | f1 + 1, hfuel =>
      rw [parseTableLoop_step f1 true editTok _ .nil (by decide)]
      match f1, hfuel with
      | f2 + 1, hfuel =>
        rw [parseTableEntry_unfold]
        have hline2 := nextParameters_line [k] f2 [' ']
          ('\n' :: (trailText (bodyLines 0 false es) ++ (nextKwTok ++ ('\n' ::
            (endTok ++ T)))))
          (trailText (bodyLines 0 false es) ++ (nextKwTok ++ ('\n' ::
            (endTok ++ T))))
          (by simp; omega) rfl
          (by intro x hx; simp only [List.mem_singleton] at hx; subst hx; exact hk)
          (Or.inl rfl)
        rw [show (' ' :: (k ++ ('\n' :: (trailText (bodyLines 0 false es) ++
            (nextKwTok ++ ('\n' :: (endTok ++ T))))))) =
          [' '] ++ (joinSp [k] ++ ('\n' :: (trailText (bodyLines 0 false es) ++
            (nextKwTok ++ ('\n' :: (endTok ++ T)))))) from by
          simp [joinSp_single]]
        rw [hline2]
        dsimp only
        have hent := (dictStmts_all es).2.1 .nil 0 0 f2 ('\n' :: (endTok ++ T)) []
          true nextKwTok hes (freshAll_nil_acc es) (by omega) (sepSp_newline _)
          rfl (by decide) (Or.inl rfl)
        simp only [ind_zero, List.nil_append] at hent
        rw [hent]
        dsimp only
        rw [show (true && decide (nextKwTok = endTok)) = false from by decide]
        rw [show dictAppend .nil es = es from rfl]
        simp only [Bool.false_eq_true, if_false]
        rw [show ('\n' :: (endTok ++ T)) = ['\n'] ++ (endTok ++ T) from rfl]
        rw [nextSnl_good ['\n'] (f2 + 1) true endTok T (by simp; omega) (by decide)
          goodTok_endTok hT]
        dsimp only
        rw [parseTableLoop_end]
        dsimp only
        rw [show dictInsert k (.object es) .nil = .cons k (.object es) .nil from rfl,
          joinSp_single]

/-- A well-formed configuration: lexically reproducible tokens throughout,
non-empty set commands and tables, distinct keys, composite values at the
root (as FgtConfig.__init__ requires), well-formed distinct tenants, and no
top-level vdom key when no tenants exist. -/
def wfConfig (cfg : FgtConfig) : Bool :=
  wfEntries cfg.root && validRoot cfg.root && wfVdoms cfg.vdoms &&
    (match cfg.vdoms with
     | [] => !(dictHasKey vdomTok cfg.root)
     | _ :: _ => true)

/-- A fuel amount sufficient to reparse the rendered configuration. -/
def mainFuel (cfg : FgtConfig) : Nat :=
  match cfg.vdoms with
  | [] => topFuel cfg.root + 4
  | _ :: _ => tableFuel (declDict cfg.vdoms) + bodyFuel cfg.root + tenFuel cfg.vdoms + 16

/-- Python str.split on newlines. -/
def splitNl : List Char → List Tok
  | [] => [[]]
  | c :: r =>
    match splitNl r with
    | [] => [[c]]
    | l :: ls => if c = '\n' then [] :: l :: ls else (c :: l) :: ls

/-- Stripping leading and trailing whitespace from one line. -/
def stripLine (l : Tok) : Tok :=
  ((l.dropWhile pyIsSpace).reverse.dropWhile pyIsSpace).reverse

/-- Claim C1 (counterexample): a syntactically valid input whose set line
separates its two values by a double space parses successfully, but
serializing the parse result does not reproduce the input lines even after
stripping leading and trailing whitespace from every line on both sides:
the serializer joins the value tokens with single spaces. -/
theorem roundtrip_counterexample :
    parseMain 99 "config a\nset x 1  2\nend".toList =
      .ok ⟨[], .cons "a".toList (.object (.cons "x".toList
        (.set ["1".toList, "2".toList]) .nil)) .nil, []⟩ ∧
    (makeConfig Unit ⟨[], .cons "a".toList (.object (.cons "x".toList
        (.set ["1".toList, "2".toList]) .nil)) .nil, []⟩ none ()).map stripLine ≠
      (splitNl "config a\nset x 1  2\nend".toList).map stripLine := by
  constructor
  · decide
  · decide

/-- Claim C1 (amended): for every well-formed configuration, parsing the
text serialized by make_config returns exactly the configuration's root
tree and tenant mapping (with no comments), in both the non-VDOM and the
multi-tenant forms, and serializing that parse result yields a line
sequence identical to the original serialization. -/
theorem roundtrip_serialize_parse (cfg : FgtConfig) (fuel : Nat)
    (hwf : wfConfig cfg = true) (hfuel : mainFuel cfg ≤ fuel) :
    parseMain fuel (joinLines (makeConfig Unit cfg none ())) =
      .ok ⟨[], cfg.root, cfg.vdoms⟩ ∧
    makeConfig Unit ⟨[], cfg.root, cfg.vdoms⟩ none () =
      makeConfig Unit cfg none () := by
  refine ⟨?_, rfl⟩
  simp only [wfConfig, Bool.and_eq_true] at hwf
  cases hv : cfg.vdoms with
  | nil =>
    rw [hv] at hwf
    simp only [mainFuel, hv] at hfuel
    rw [show makeConfig Unit cfg none () = sectionLines Unit none () cfg.root from by
      rw [makeConfig, hv]
      rfl]
    rw [sectionLines_eq]
    exact parseMain_plain cfg.root fuel hwf.1.1.1 hwf.1.1.2
      (by simpa using hwf.2) hfuel
  | cons x xs =>
    rw [hv] at hwf
    simp only [mainFuel, hv] at hfuel
    rw [makeConfig_vdomRender cfg (by rw [hv]; simp), hv]
    exact parseMain_vdomR cfg.root (x :: xs) fuel (by simp) hwf.1.1.1 hwf.1.1.2
      hwf.1.2 hfuel

/-- Witness for claim C1: the amended round trip evaluated on a concrete
two-tenant configuration. -/
theorem roundtrip_serialize_parse_witness :
    parseMain 200 (joinLines (makeConfig Unit
      ⟨[], .cons "log".toList (.object (.cons "status".toList
          (.set ["enable".toList]) .nil)) .nil,
        [("root".toList, .cons "x".toList (.set ["1".toList]) .nil)]⟩ none ())) =
      .ok ⟨[], .cons "log".toList (.object (.cons "status".toList
          (.set ["enable".toList]) .nil)) .nil,
        [("root".toList, .cons "x".toList (.set ["1".toList]) .nil)]⟩ :=
  (roundtrip_serialize_parse
    ⟨[], .cons "log".toList (.object (.cons "status".toList
        (.set ["enable".toList]) .nil)) .nil,
      [("root".toList, .cons "x".toList (.set ["1".toList]) .nil)]⟩
    200 (by decide) (by decide)).1

/-- Claim C3: inside a table whose declared name is the reserved word vdom,
an edit entry may terminate on the end keyword instead of next; the end
token is pushed back so the enclosing table loop also observes it; and the
block without next parses to exactly the tree of the block in which both
next and end are present, leaving the same stream state. -/
theorem vdom_end_pushback (k : Tok) (es : FgtConfigDict) (T : List Char)
    (fuel : Nat) (hk : goodTok k = true) (hes : wfEntries es = true)
    (hT : sepSp T = true) (hfuel : k.length + bodyFuel es + 8 ≤ fuel) :
    parseTableEntry fuel true ⟨' ' :: (k ++ ('\n' ::
        (trailText (bodyLines 0 false es) ++ (endTok ++ T)))), none⟩ =
      .ok ((k, .object es), ⟨T, some endTok⟩) ∧
    (∀ f2, 1 ≤ f2 →
      nextSnlToken f2 true ⟨T, some endTok⟩ = .ok (endTok, ⟨T, none⟩)) ∧
    parseConfig fuel ⟨' ' :: (vdomTok ++ ('\n' :: (editTok ++ (' ' :: (k ++ ('\n' ::
        (trailText (bodyLines 0 false es) ++ (endTok ++ T)))))))), none⟩ =
      .ok ((vdomTok, .table (.cons k (.object es) .nil)), ⟨T, none⟩) ∧
    parseConfig fuel ⟨' ' :: (vdomTok ++ ('\n' :: (editTok ++ (' ' :: (k ++ ('\n' ::
        (trailText (bodyLines 0 false es) ++ (nextKwTok ++ ('\n' ::
          (endTok ++ T)))))))))), none⟩ =
      .ok ((vdomTok, .table (.cons k (.object es) .nil)), ⟨T, none⟩) :=
  ⟨parseTableEntry_vdomEnd k es T fuel hk hes hT hfuel,
   fun f2 h2 => nextSnl_pushed f2 true T endTok h2 (by decide),
   parseConfig_tenant k es T fuel hk hes hT hfuel,
   parseConfig_tenantNext k es T fuel hk hes hT hfuel⟩

/-- Witness for claim C3: the pushback and the next-less equivalence
evaluated on a concrete tenant body. -/
theorem vdom_end_pushback_witness :
    parseTableEntry 99 true ⟨' ' :: ("root".toList ++ ('\n' ::
        (trailText (bodyLines 0 false (.cons "x".toList
          (.set ["1".toList]) .nil)) ++ (endTok ++ [])))), none⟩ =
      .ok (("root".toList, .object (.cons "x".toList (.set ["1".toList]) .nil)),
        ⟨[], some endTok⟩) ∧
    parseConfig 99 ⟨' ' :: (vdomTok ++ ('\n' :: (editTok ++ (' ' ::
        ("root".toList ++ ('\n' :: (trailText (bodyLines 0 false
          (.cons "x".toList (.set ["1".toList]) .nil)) ++
            (endTok ++ [])))))))), none⟩ =
      .ok ((vdomTok, .table (.cons "root".toList
        (.object (.cons "x".toList (.set ["1".toList]) .nil)) .nil)),
        ⟨[], none⟩) :=
  ⟨(vdom_end_pushback "root".toList (.cons "x".toList (.set ["1".toList]) .nil)
      [] 99 (by decide) (by decide) (by decide) (by decide)).1,
   (vdom_end_pushback "root".toList (.cons "x".toList (.set ["1".toList]) .nil)
      [] 99 (by decide) (by decide) (by decide) (by decide)).2.2.1⟩

/-- Claim C4: assigning a tenant key already present in the mapping
overwrites that entry in place; parsing a declare-then-define input stores
only the fully populated entry per tenant and roots the result at the
subtree under the top-level global key; and parsing an input with no vdom
statement roots the result at the entire top-level object with an empty
tenant mapping. -/
theorem vdom_redirect_and_root :
    (∀ (k : Tok) (v x : FgtConfigDict) (done r : List (Tok × FgtConfigDict)),
      vdHasKey k done = false →
      vdInsert k v (done ++ (k, x) :: r) = done ++ (k, v) :: r) ∧
    (∀ (root : FgtConfigDict) (vd : List (Tok × FgtConfigDict)) (fuel : Nat),
      vd ≠ [] → wfEntries root = true → validRoot root = true →
      wfVdoms vd = true →
      tableFuel (declDict vd) + bodyFuel root + tenFuel vd + 16 ≤ fuel →
      parseMain fuel (vdomRender root vd) = .ok ⟨[], root, vd⟩) ∧
    (∀ (root : FgtConfigDict) (fuel : Nat),
      wfEntries root = true → validRoot root = true →
      dictHasKey vdomTok root = false → topFuel root + 4 ≤ fuel →
      parseMain fuel (joinLines (bodyLines 0 false root)) = .ok ⟨[], root, []⟩) :=
  ⟨fun k v x done r h => vdInsert_mid k v x done r h,
   fun root vd fuel h1 h2 h3 h4 h5 => parseMain_vdomR root vd fuel h1 h2 h3 h4 h5,
   fun root fuel h1 h2 h3 h4 => parseMain_plain root fuel h1 h2 h3 h4⟩

/-- Witness for claim C4: the declare-then-define parse evaluated on a
concrete tenant list, and the no-tenant parse on a concrete root. -/
theorem vdom_redirect_and_root_witness :
    parseMain 200 (vdomRender
      (.cons "log".toList (.object (.cons "status".toList
        (.set ["enable".toList]) .nil)) .nil)
      [("vd1".toList, .cons "x".toList (.set ["1".toList]) .nil)]) =
      .ok ⟨[], .cons "log".toList (.object (.cons "status".toList
          (.set ["enable".toList]) .nil)) .nil,
        [("vd1".toList, .cons "x".toList (.set ["1".toList]) .nil)]⟩ ∧
    parseMain 99 (joinLines (bodyLines 0 false
      (.cons "a".toList (.object (.cons "b".toList
        (.set ["c".toList]) .nil)) .nil))) =
      .ok ⟨[], .cons "a".toList (.object (.cons "b".toList
        (.set ["c".toList]) .nil)) .nil, []⟩ :=
  ⟨vdom_redirect_and_root.2.1
      (.cons "log".toList (.object (.cons "status".toList
        (.set ["enable".toList]) .nil)) .nil)
      [("vd1".toList, .cons "x".toList (.set ["1".toList]) .nil)]
      200 (by decide) (by decide) (by decide) (by decide) (by decide),
   vdom_redirect_and_root.2.2
      (.cons "a".toList (.object (.cons "b".toList (.set ["c".toList]) .nil)) .nil)
      99 (by decide) (by decide) (by decide) (by decide)⟩

end FortiCfg
